import Mathlib

/-!
# Verification of the `par` paragraph reformatter (reformat.c / par.c)

Shallow embedding of the paragraph-reflow engine of the `par` utility:
the word data model, the line-break optimizers (`simplebreaks`,
`normalbreaks`, `justbreaks`), the word tokenizer and `guess` merge pass,
the too-long-word splitter, line assembly, the bodiless-line classifier of
`delimit`, and the command-line flag parser `parsearg`.

Machine integers of the C source are modelled as `Nat`/`Int`; strings as
`List Char` (C strings carry no interior NUL after `readlines`, so a
`List Char` of the characters before the terminating NUL is faithful).
Fallible C functions that report through the `errmsg` out-parameter are
modelled with `Except ErrMsg`.
-/

set_option linter.unusedVariables false

namespace Par

/-- A word of an input paragraph (struct `word` of reformat.c).
`chrs` holds the bytes of the view (C keeps a pointer and a length; we
keep the bytes themselves together with the position of the view:
`line` is the index of the owning line and `start` the byte offset of
the view inside it, so pointer comparisons of the C code can be
modelled).  The three flag bits W_SHIFTED, W_CURIOUS, W_CAPITAL are
separate Booleans. -/
structure Word where
  line : Nat
  start : Nat
  chrs : List Char
  shifted : Bool := false
  curious : Bool := false
  capital : Bool := false
deriving DecidableEq, Repr

instance : Inhabited Word := ⟨{ line := 0, start := 0, chrs := [] }⟩

/-- `w->length` of the C code: the length of the view. -/
def Word.wlen (w : Word) : Nat := w.chrs.length

/-- The space cost of appending word `w` to a line that already has a word:
one separating space, one extra space if the word is shifted, plus the
word's own length (the `1 + isshifted(w2) + w2->length` increments of the
optimizer loops). -/
def wordGap (w : Word) : Nat := 1 + (if w.shifted then 1 else 0) + w.wlen

/-- Length of the line made of the words `ws` (the `linelen` accumulators of
reformat.c: first word's length, plus `wordGap` of every further word). -/
def seglen : List Word → Nat
  | [] => 0
  | w :: ws => w.wlen + (ws.map wordGap).sum

/-- Error messages reported through the `errmsg_t` out-parameter.  Each
constructor records the data that the corresponding `sprintf` call of the C
source formats into the 163-byte buffer; `ErrMsg.render` produces the
formatted text. -/
inductive ErrMsg where
  | outofmem
  | impossibility (n : Nat)
  | lineTooShort (lineNo pfxLen sfxLen : Nat)
  | wordTooLong (excerpt : List Char)
  | cannotJustify
deriving DecidableEq, Repr

/-- `errmsg_size` of errmsg.h: capacity of the message buffer, NUL included. -/
def errmsgSize : Nat := 163

/-- Decimal digit character for `d < 10` (the `"0123456789"` table of
`digtoint`, read in the rendering direction). -/
def digitChar (d : Nat) : Char :=
  match d with
  | 0 => '0' | 1 => '1' | 2 => '2' | 3 => '3' | 4 => '4'
  | 5 => '5' | 6 => '6' | 7 => '7' | 8 => '8' | _ => '9'

/-- Decimal rendering of `n`, most significant digit first; `fuel`-driven
recursion (`fuel ≥ n` suffices, see `natStrGo_len_le`). -/
def natStrGo : Nat → Nat → List Char
  | 0, _ => []
  | _ + 1, 0 => []
  | fuel + 1, n + 1 => natStrGo fuel ((n + 1) / 10) ++ [digitChar ((n + 1) % 10)]

/-- Decimal rendering of `n` as printf's `%d`/`%ld` produce it. -/
def natStr (n : Nat) : List Char :=
  if n = 0 then ['0'] else natStrGo (n + 1) n

/-- The text a given `ErrMsg` puts into the `errmsg_t` buffer (without the
terminating NUL).  The format strings are the ones of reformat.c, of
errmsg.h (`outofmem` is documented there as `"Out of memory.\n"`), and of
par's shared `impossibility` format string.

Modelled from the spec: the `impossibility` format string is declared
outside the files of this repository (only its uses are here); per the
spec's error-handling section it is the defensive "optimizer invariants
violated" report, rendered here with its conventional text. -/
def ErrMsg.render : ErrMsg → List Char
  | .outofmem => "Out of memory.\n".toList
  | .impossibility n =>
      "Impossibility #".toList ++ natStr n ++ " has occurred.  Please report it.\n".toList
  | .lineTooShort k p s =>
      "Line ".toList ++ natStr k ++ " shorter than <prefix> + <suffix> = ".toList ++
        natStr p ++ " + ".toList ++ natStr s ++ " = ".toList ++ natStr (p + s) ++ "\n".toList
  | .wordTooLong ex => "Word too long: ".toList ++ ex ++ "\n".toList
  | .cannotJustify => "Cannot justify.\n".toList

/-- The `errmsg` buffer contents after a call modelled with `Except`:
empty on success, the rendered message on failure. -/
def errmsgOf {α : Type} : Except ErrMsg α → List Char
  | .ok _ => []
  | .error e => e.render

/-! ## The bodiless-line classifier of `delimit` (par.c)

`delimit` walks the lines of a group whose common prefix length `pre` and
common suffix length `suf` have been computed by `compresuflen`; for each
line it inspects the body `line[pre .. len - suf]` and decides whether the
line is bodiless (flag `L_BODILESS`). -/

/-- The per-line bodiless classification of `delimit` (par.c lines
1086-1101): `rc` is the first body byte (a space if the body is empty);
the line is marked bodiless unless (`rc ≠ ' '` and (`repeat = 0` or the
body is shorter than `repeat`)) or some body byte differs from `rc`. -/
def delimitBodiless (line : List Char) (pre suf rep : Nat) : Bool :=
  let body := (line.take (line.length - suf)).drop pre
  let rc := body.headD ' '
  if rc ≠ ' ' ∧ (rep = 0 ∨ body.length < rep) then false
  else body.all (fun c => c = rc)

/-! ## The pass-2 cost term of `justbreaks` (reformat.c line 278) -/

/-- The cost added for one candidate line in pass 2 of `justbreaks`:
`(extra / numgaps) * (extra + numbiggaps) + numbiggaps` with
`numbiggaps = extra % numgaps`. -/
def pass2cost (extra numgaps : Nat) : Nat :=
  (extra / numgaps) * (extra + extra % numgaps) + extra % numgaps

/-! ## The too-long-word splitter of `reformat` (lines 411-436)

With `Report = 0`, a word longer than `L` is replaced in place by pieces of
length `L` and a final tail; the C loop inserts a fresh length-`L` word
before the current one and advances the current word's view by `L` until it
fits.  The first inserted piece takes over the word's W_CAPITAL and
W_SHIFTED bits, which are cleared on the remainder (W_CURIOUS stays on the
tail).  The C loop does not terminate when `L = 0` (the driver guarantees
`L ≥ 1`); the model returns the word unchanged in that case. -/

/-- The splitting loop, with explicit fuel (any `fuel ≥ w.chrs.length`
computes the fixpoint, since each round removes `L ≥ 1` bytes). -/
def splitWordGo (L : Nat) : Nat → Word → List Word
  | 0, w => [w]
  | fuel + 1, w =>
      if w.chrs.length ≤ L ∨ L = 0 then [w]
      else
        { line := w.line, start := w.start, chrs := w.chrs.take L,
          shifted := w.shifted, curious := false, capital := w.capital } ::
        splitWordGo L fuel
          { line := w.line, start := w.start + L, chrs := w.chrs.drop L,
            shifted := false, curious := w.curious, capital := false }

/-- Split one word into pieces of length `L` plus a tail of length `≤ L`. -/
def splitWord (L : Nat) (w : Word) : List Word := splitWordGo L w.chrs.length w

/-! ## Command-line argument parsing (`strtoudec`, `parsearg` of par.c) -/

/-- `digtoint` of par.c: the value of a decimal digit, or `none`. -/
def digtoint (c : Char) : Option Nat :=
  if '0' ≤ c ∧ c ≤ '9' then some (c.toNat - '0'.toNat) else none

/-- The accumulation loop of `strtoudec` after the first digit `d` has been
read: fails (returns `none`) as soon as the accumulator reaches 1000 with a
digit still to add, so values above 9999 are rejected. -/
def strtoudecGo (n d : Nat) : List Char → Option Nat
  | [] => if n ≥ 1000 then none else some (10 * n + d)
  | c :: cs =>
      if n ≥ 1000 then none
      else
        match digtoint c with
        | some d2 => strtoudecGo (10 * n + d) d2 cs
        | none => some (10 * n + d)

/-- `strtoudec` of par.c: converts the longest decimal-digit prefix of `s`.
If `s` does not start with a digit the previous value `old` is kept; if the
represented integer exceeds 9999 the conversion fails (`none`). -/
def strtoudec (s : List Char) (old : Int) : Option Int :=
  match s with
  | [] => some old
  | c :: cs =>
      match digtoint c with
      | none => some old
      | some d => (strtoudecGo 0 d cs).map (fun n => (n : Int))

/-- The mutable option variables of `main` (par.c) that `parsearg` updates.
Integer options are `Int` because `prefix`, `suffix` and `touch` use `-1`
as "not set". -/
structure Opts where
  help : Bool := false
  version : Bool := false
  hang : Int := 0
  pfx : Int := -1
  rep : Int := 0
  sfx : Int := -1
  width : Int := 72
  cap : Int := 0
  div : Int := 0
  err : Int := 0
  expel : Int := 0
  fit : Int := 0
  guess : Int := 0
  invis : Int := 0
  just : Int := 0
  lastOpt : Int := 0
  quote : Int := 0
  report : Int := 0
  touch : Int := -1
deriving DecidableEq, Repr

/-- The variable initializations of `main` (par.c lines 1226-1229). -/
def defaultOpts : Opts := {}

/-- Result of `parsearg`: a normal update of the options, a charset
modification (the `B`/`P`/`Q` branch, which hands the set literal to the
external charset module - charset.c is not part of this repository), or
`badarg` (which also sets `help`). -/
inductive ParseResult where
  | done (o : Opts)
  | charsetChange (which op : Char) (litSpec : List Char) (o : Opts)
  | badarg (o : Opts)
deriving DecidableEq, Repr

/-- One step of the option-letter dispatch of `parsearg` (lines 824-847):
given the option character `oc` and the value `n` produced by `strtoudec`
(`-1` when no digits followed), update the options or fail. -/
def applyFlag (oc : Char) (n : Int) (o : Opts) : Option Opts :=
  if oc = 'h' then some { o with hang := if n ≥ 0 then n else 1 }
  else if oc = 'w' then some { o with width := if n ≥ 0 then n else 79 }
  else if oc = 'p' then some { o with pfx := n }
  else if oc = 'r' then some { o with rep := if n ≥ 0 then n else 3 }
  else if oc = 's' then some { o with sfx := n }
  else
    let n := if n < 0 then 1 else n
    if n > 1 then none
    else if oc = 'c' then some { o with cap := n }
    else if oc = 'd' then some { o with div := n }
    else if oc = 'E' then some { o with err := n }
    else if oc = 'e' then some { o with expel := n }
    else if oc = 'f' then some { o with fit := n }
    else if oc = 'g' then some { o with guess := n }
    else if oc = 'i' then some { o with invis := n }
    else if oc = 'j' then some { o with just := n }
    else if oc = 'l' then some { o with lastOpt := n }
    else if oc = 'q' then some { o with quote := n }
    else if oc = 'R' then some { o with report := n }
    else if oc = 't' then some { o with touch := n }
    else none

/-- The `for (;;)` loop of `parsearg` (lines 818-848): skip the digits of
the previous number, read the option letter, convert its optional numeric
argument, dispatch. -/
def parseargLoop (o : Opts) : List Char → ParseResult
  | [] => .done o
  | c :: cs =>
      if (digtoint c).isSome then parseargLoop o cs
      else
        match strtoudec cs (-1) with
        | none => .badarg { o with help := true }
        | some n =>
            match applyFlag c n o with
            | some o2 => parseargLoop o2 cs
            | none => .badarg { o with help := true }

/-- The bare-number block of `parsearg` (lines 812-816) followed by the
flag-letter loop: a leading number `n` sets the prefix (`n ≤ 8`) or the
width (`n > 8`). -/
def parseargStart (o : Opts) (arg : List Char) : ParseResult :=
  if (digtoint (arg.headD ' ')).isSome then
    match strtoudec arg (-1) with
    | none => .badarg { o with help := true }
    | some n =>
        let o := if n ≤ 8 then { o with pfx := n } else { o with width := n }
        parseargLoop o arg
  else parseargLoop o arg

/-- `parsearg` of par.c.  A leading `-` is skipped; `help`/`version` set
the respective flags; `B`/`P`/`Q` arguments are charset changes handled by
the external charset module (a missing `=`/`+`/`-` operator is a bad
argument); a leading bare number is handled by `parseargStart`; then the
flag-letter chain is parsed. -/
def parsearg (o : Opts) (arg : List Char) : ParseResult :=
  let arg := if arg.headD ' ' = '-' then arg.tail else arg
  if arg = "help".toList then .done { o with help := true }
  else if arg = "version".toList then .done { o with version := true }
  else if arg.headD ' ' = 'B' ∨ arg.headD ' ' = 'P' ∨ arg.headD ' ' = 'Q' then
    match arg with
    | _ :: op :: rest =>
        if op = '=' ∨ op = '+' ∨ op = '-' then .charsetChange (arg.headD ' ') op rest o
        else .badarg { o with help := true }
    | _ => .badarg { o with help := true }
  else parseargStart o arg

/-- Width recorded in a `ParseResult`, when the parse succeeded. -/
def ParseResult.widthOf : ParseResult → Option Int
  | .done o => some o.width
  | .charsetChange _ _ _ o => some o.width
  | .badarg _ => none

/-! ## `simplebreaks` (reformat.c lines 99-135)

The C function fills `score`/`nextline` of every word right-to-left.  The
model computes the list of scores of all suffixes of the word list
(`sbCells`), head first; `sbCells (w :: rest)` builds the score of `w` from
the scores of `rest`.  The first loop of the C code assigns
`last ? linelen : L` to every word whose whole tail fits in one line; since
the tail length only grows walking left, that loop covers exactly the words
with `seglen (w :: rest) ≤ L`, which is the branch condition used here.
Scores are `Int` (they can be `-1`). -/

/-- The inner candidate loop for one word of the second `simplebreaks`
loop: `ll` is the length of the line from the current word up to (not
including) the candidate `w2`; each pair holds `w2` and its score.  The
loop stops at the first candidate for which the line no longer fits, and
keeps the candidate score `min (w2.score) ll` whenever it is `≥` the best
so far. -/
def sbFind (L : Int) (best : Int) (ll : Nat) : List (Word × Int) → Int
  | [] => best
  | (w2, s2) :: rs =>
      if (ll : Int) ≤ L then
        sbFind L (if min s2 (ll : Int) ≥ best then min s2 (ll : Int) else best)
          (ll + wordGap w2) rs
      else best

/-- Scores of all suffixes of the word list under `simplebreaks`. -/
def sbCells (L : Int) (last : Bool) : List Word → List Int
  | [] => []
  | w :: rest =>
      (if (seglen (w :: rest) : Int) ≤ L then (if last then (seglen (w :: rest) : Int) else L)
       else sbFind L (-1) w.wlen (rest.zip (sbCells L last rest))) :: sbCells L last rest

/-- `simplebreaks`: the score of the first word, or `L` when there are no
words (reformat.c line 111). -/
def simplebreaks (L : Int) (last : Bool) (ws : List Word) : Int :=
  match sbCells L last ws with
  | [] => L
  | c :: _ => c

/-! ## `normalbreaks` (reformat.c lines 138-208) -/

/-- Score and chosen break of one word.  `nl = some t` means the line
starting at this word takes `t` further words and the next line starts at
the word `t + 1` positions later (`nextline` points at that word);
`nl = none` is a NULL `nextline`: the line runs to the end of the list. -/
structure Cell where
  score : Int := -1
  nl : Option Nat := none
deriving DecidableEq, Repr

/-- The candidate loop of the cost-minimization pass of `normalbreaks`
(lines 182-202) for one word: `ll` is the length of the line up to the
candidate `w2`, `t` the number of words already in the line beyond the
first.  The terminal candidate (`w2 = NULL`, the `[]` case) uses score 0
and, when `last` is false, drops both the `extra` penalty and the
`shortest` constraint.  Ties keep the later candidate (`score <=` update
rule). -/
def nbFind (target shortest : Int) (last : Bool) (best : Cell) (ll t : Nat) :
    List (Word × Cell) → Cell
  | [] =>
      if (ll : Int) ≤ target then
        if (ll : Int) ≥ (if last then shortest else 0) then
          if best.score < 0 ∨
              (if last then target - ll else 0) * (if last then target - ll else 0)
                ≤ best.score then
            ⟨(if last then target - ll else 0) * (if last then target - ll else 0), none⟩
          else best
        else best
      else best
  | (w2, c2) :: rs =>
      if (ll : Int) ≤ target then
        nbFind target shortest last
          (if (ll : Int) ≥ shortest ∧ c2.score ≥ 0 then
            if best.score < 0 ∨ c2.score + (target - ll) * (target - ll) ≤ best.score then
              (⟨c2.score + (target - ll) * (target - ll), some t⟩ : Cell)
            else best
           else best)
          (ll + wordGap w2) (t + 1) rs
      else best

/-- Cells of all suffixes under the cost-minimization pass of
`normalbreaks`. -/
def nbCells (target shortest : Int) (last : Bool) : List Word → List Cell
  | [] => []
  | w :: rest =>
      nbFind target shortest last ⟨-1, none⟩ w.wlen 0
          (rest.zip (nbCells target shortest last rest)) ::
        nbCells target shortest last rest

/-- The best-fit search of `normalbreaks` (lines 157-167): try
`L, L-1, L-2, …`, stop at the first width for which `simplebreaks` fails,
keep the width minimizing `tryL - shortest`.  The C loop always stops by
`tryL = -1` (every score is then negative), so fuel `L.toNat + 2` makes the
model exhaust exactly the widths the C code tries. -/
def fitSearch (last : Bool) (ws : List Word) : Nat → Int → Int → Int → Int
  | 0, _, target, _ => target
  | fuel + 1, tryL, target, score =>
      if simplebreaks tryL last ws < 0 then target
      else if tryL - simplebreaks tryL last ws < score then
        fitSearch last ws fuel (tryL - 1) tryL (tryL - simplebreaks tryL last ws)
      else fitSearch last ws fuel (tryL - 1) target score

/-- The target width used by `normalbreaks`: the best-fit search result
when `fit`, else `L`. -/
def nbTarget (L : Int) (fit last : Bool) (ws : List Word) : Int :=
  if fit then fitSearch last ws (L.toNat + 2) L L (L + 1) else L

/-- The cells `normalbreaks` computes once the target is chosen. -/
def nbCellsAt (L : Int) (fit last : Bool) (ws : List Word) : List Cell :=
  nbCells (nbTarget L fit last ws) (simplebreaks (nbTarget L fit last ws) last ws) last ws

/-- `normalbreaks`: choose the target width (best-fit search if `fit`),
compute the maximum possible shortest line, then minimize the sum of
squared differences from the target.  Errors are the `impossibility`
reports of lines 173 and 207. -/
def normalbreaks (L : Int) (fit last : Bool) (ws : List Word) :
    Except ErrMsg (List Cell) :=
  if ws = [] then .ok []
  else if simplebreaks (nbTarget L fit last ws) last ws < 0 then .error (.impossibility 1)
  else if ((nbCellsAt L fit last ws).headD ⟨-1, none⟩).score < 0 then .error (.impossibility 2)
  else .ok (nbCellsAt L fit last ws)

/-! ## `justbreaks` (reformat.c lines 211-294) -/

/-- The candidate loop of pass 1 of `justbreaks` (minimize the largest
inter-word gap, lines 227-248) for one word.  `extra` is `L` minus the
length of the line up to the candidate; the loop runs while `extra ≥ 0`.
`gap` is `⌈extra / numgaps⌉`, or `L` when the line has a single word; the
candidate score is `max gap (score of the rest)` (`0` for the terminal
candidate, whose gap is forced to `0` when `last` is false).  The update
rule is strict (`score <`), keeping the earliest best candidate.
`ceilGap` is the `gap = numgaps ? (extra + numgaps - 1) / numgaps : L`
expression of both loops (all uses have `extra ≥ 0`, making the division
a ceiling of `extra / numgaps`). -/
def ceilGap (L extra : Int) (numgaps : Nat) : Int :=
  if numgaps = 0 then L else (extra + numgaps - 1) / numgaps

def jb1Find (L : Int) (last : Bool) (best : Cell) (extra : Int) (numgaps t : Nat) :
    List (Word × Cell) → Cell
  | [] =>
      if extra ≥ 0 then
        if max (if last then ceilGap L extra numgaps else 0) 0 < best.score then
          ⟨max (if last then ceilGap L extra numgaps else 0) 0, none⟩
        else best
      else best
  | (w2, c2) :: rs =>
      if extra ≥ 0 then
        jb1Find L last
          (if max (ceilGap L extra numgaps) c2.score < best.score then
            (⟨max (ceilGap L extra numgaps) c2.score, some t⟩ : Cell)
           else best)
          (extra - wordGap w2) (numgaps + 1) (t + 1) rs
      else best

/-- Cells of all suffixes under pass 1 of `justbreaks` (initial score `L`). -/
def jb1Cells (L : Int) (last : Bool) : List Word → List Cell
  | [] => []
  | w :: rest =>
      jb1Find L last ⟨L, none⟩ ((L : Int) - w.wlen) 0 0
          (rest.zip (jb1Cells L last rest)) ::
        jb1Cells L last rest

/-- The candidate loop of pass 2 of `justbreaks` (minimize the sum of
squared extra-space counts, lines 259-290) for one word.  Reaching the
terminal candidate with `last` false short-circuits to score 0 and a NULL
`nextline` (lines 269-273).  Candidates need `gap ≤ maxgap`; their cost is
`pass2cost`; ties keep the later candidate. -/
def jb2Find (L maxgap : Int) (last : Bool) (best : Cell) (extra : Int) (numgaps t : Nat) :
    List (Word × Cell) → Cell
  | [] =>
      if extra ≥ 0 then
        if ¬ last then ⟨0, none⟩
        else
          if ceilGap L extra numgaps ≤ maxgap then
            if best.score < 0 ∨ ((pass2cost extra.toNat numgaps : Nat) : Int) ≤ best.score then
              ⟨((pass2cost extra.toNat numgaps : Nat) : Int), none⟩
            else best
          else best
      else best
  | (w2, c2) :: rs =>
      if extra ≥ 0 then
        jb2Find L maxgap last
          (if ceilGap L extra numgaps ≤ maxgap ∧ c2.score ≥ 0 then
            if best.score < 0 ∨
                c2.score + ((pass2cost extra.toNat numgaps : Nat) : Int) ≤ best.score then
              (⟨c2.score + ((pass2cost extra.toNat numgaps : Nat) : Int), some t⟩ : Cell)
            else best
           else best)
          (extra - wordGap w2) (numgaps + 1) (t + 1) rs
      else best

/-- Cells of all suffixes under pass 2 of `justbreaks`. -/
def jb2Cells (L maxgap : Int) (last : Bool) : List Word → List Cell
  | [] => []
  | w :: rest =>
      jb2Find L maxgap last ⟨-1, none⟩ ((L : Int) - w.wlen) 0 0
          (rest.zip (jb2Cells L maxgap last rest)) ::
        jb2Cells L maxgap last rest

/-- The minimum possible largest gap computed by pass 1 (score of the
first word). -/
def jbMaxgap (L : Int) (last : Bool) (ws : List Word) : Int :=
  ((jb1Cells L last ws).headD ⟨L, none⟩).score

/-- The cells `justbreaks` computes in pass 2. -/
def jb2CellsAt (L : Int) (last : Bool) (ws : List Word) : List Cell :=
  jb2Cells L (jbMaxgap L last ws) last ws

/-- `justbreaks`: pass 1 computes the minimum possible largest gap; if it
is not below `L` the paragraph cannot be justified (line 252); otherwise
pass 2 chooses the breaks. -/
def justbreaks (L : Int) (last : Bool) (ws : List Word) :
    Except ErrMsg (List Cell) :=
  if ws = [] then .ok []
  else if jbMaxgap L last ws ≥ L then .error .cannotJustify
  else if ((jb2CellsAt L last ws).headD ⟨-1, none⟩).score < 0 then .error (.impossibility 3)
  else .ok (jb2CellsAt L last ws)

/-! ## Tokenization (reformat.c lines 336-371)

Each line's body region `line[pfxLen .. len - sfxLen]` is split at runs of
spaces.  The very first word of the IP is special (`onfirstword`): its view
is widened to start at `line + pfxLen`, so it includes the body's leading
spaces. -/

/-- `lineTooShortIdx lines pfxLen sfxLen k` is the 1-based index (counting
from `k`) of the first line shorter than `pfxLen + sfxLen`, the check of
reformat.c lines 339-344. -/
def lineTooShortIdx (pfxLen sfxLen : Nat) : List (List Char) → Nat → Option Nat
  | [], _ => none
  | l :: ls, k =>
      if l.length < pfxLen + sfxLen then some k else lineTooShortIdx pfxLen sfxLen ls (k + 1)

/-- The body region of a line: the bytes between the prefix and the
suffix. -/
def lineBody (l : List Char) (pfxLen sfxLen : Nat) : List Char :=
  (l.take (l.length - sfxLen)).drop pfxLen

/-- Auxiliary: `dropWhile` never lengthens a list. -/
theorem dropWhileLenLe {α : Type} (p : α → Bool) : ∀ l : List α, (l.dropWhile p).length ≤ l.length
  | [] => le_refl _
  | a :: l => by
      simp only [List.dropWhile]
      split
      · exact le_trans (dropWhileLenLe p l) (Nat.le_succ _)
      · exact le_refl _

/-- The tokenization scan with explicit fuel (any `fuel ≥ length of the
remaining body` computes the fixpoint): maximal nonspace runs, each as a
`Word` with its position (`pos` is the offset of the first remaining byte
inside the line). -/
def tokGoF (li : Nat) : Nat → Nat → List Char → List Word
  | _, _, [] => []
  | 0, _, _ :: _ => []
  | fuel + 1, pos, c :: cs =>
      if c = ' ' then tokGoF li fuel (pos + 1) cs
      else
        { line := li, start := pos, chrs := c :: cs.takeWhile (fun a => a ≠ ' ') } ::
          tokGoF li fuel (pos + (c :: cs.takeWhile (fun a => a ≠ ' ')).length)
            (cs.dropWhile (fun a => a ≠ ' '))

/-- Tokenize the body of line `li`, whose first byte sits at offset `pos`
of the line. -/
def tokGo (li : Nat) (pos : Nat) (body : List Char) : List Word :=
  tokGoF li body.length pos body

/-- Widen the first word of the IP to start at the prefix (the
`onfirstword` adjustment of lines 352-355): its view gains the body's
leading spaces. -/
def adjustFirst (pfxLen : Nat) (body : List Char) : List Word → List Word
  | [] => []
  | w :: rest =>
      { w with start := pfxLen, chrs := body.takeWhile (fun a => a = ' ') ++ w.chrs } :: rest

/-- Words of all lines of the IP, in order, with the first-word
adjustment.  `li` numbers the lines, `found` records whether a word has
been produced yet. -/
def tokenizeGo (pfxLen sfxLen : Nat) : List (List Char) → Nat → Bool → List Word
  | [], _, _ => []
  | l :: ls, li, found =>
      let body := lineBody l pfxLen sfxLen
      let ws := tokGo li pfxLen body
      let ws2 := if found then ws else adjustFirst pfxLen body ws
      ws2 ++ tokenizeGo pfxLen sfxLen ls (li + 1) (found || !ws.isEmpty)

/-- The word list of an IP (the tokenization loop of lines 336-371). -/
def tokenizeIP (lines : List (List Char)) (pfxLen sfxLen : Nat) : List Word :=
  tokenizeGo pfxLen sfxLen lines 0 false

/-! ## The guess pass (`checkcapital`, `checkcurious`, lines 63-96 and
375-397) -/

/-- `isalnum` of ctype.h under the C locale on ASCII input. -/
def cIsAlnum (c : Char) : Bool :=
  ('0' ≤ c && c ≤ '9') || ('a' ≤ c && c ≤ 'z') || ('A' ≤ c && c ≤ 'Z')

/-- `islower` of ctype.h under the C locale on ASCII input. -/
def cIsLower (c : Char) : Bool := 'a' ≤ c && c ≤ 'z'

/-- `checkcapital`: the word's first alphanumeric exists and is not
lowercase. -/
def checkcapital (w : Word) : Bool :=
  match w.chrs.dropWhile (fun c => !cIsAlnum c) with
  | [] => false
  | c :: _ => !cIsLower c

/-- The backward scan of `checkcurious` on the reversed word: an
alphanumeric before any terminal character means not curious; at the first
terminal character, the word is curious iff some alphanumeric lies further
left (and the terminal character is not the word's first byte). -/
def curiousScan (term : List Char) : List Char → Bool
  | [] => false
  | c :: cs =>
      if cIsAlnum c then false
      else if term.contains c then cs.any cIsAlnum
      else curiousScan term cs

/-- `checkcurious`: scan the word from its end. -/
def checkcurious (term : List Char) (w : Word) : Bool :=
  curiousScan term w.chrs.reverse

/-- The merge of a curious word `w1` with the following capitalized word
`w2` when they are source-adjacent (lines 381-390): `w2`'s view is widened
over `w1` and the single joining space, and `w1`'s W_CAPITAL and W_SHIFTED
replace `w2`'s.  The joining byte is the space that separated the two
words on their common line. -/
def mergeWords (w1 w2 : Word) : Word :=
  { line := w1.line, start := w1.start, chrs := w1.chrs ++ ' ' :: w2.chrs,
    shifted := w1.shifted, curious := w2.curious, capital := w1.capital }

/-- Source adjacency test of line 381: in C, `w1->chrs[w1->length]` is
nonzero and `w1->chrs + w1->length + 1 == w2->chrs`.  Two words satisfy it
exactly when they live on the same line with one (space) byte between the
views; `w1` ending at its line's end makes the first conjunct a NUL (or the
pointers unequal), so the positional test below is equivalent. -/
def wordsAdjacent (w1 w2 : Word) : Bool :=
  w1.line = w2.line && w1.start + w1.chrs.length + 1 = w2.start

/-- The walk of the guess pass (lines 376-396): `prev` is the word behind
the cursor (`w1`; `none` plays the dummy head, whose flags are zero).
Each word first gets its W_CURIOUS bit, then - if `cap` is set or it is
capitalized - its W_CAPITAL bit; a capitalized word behind a curious
`prev` merges with it when source-adjacent, else becomes shifted. -/
def guessGo (cap : Bool) (term : List Char) : Option Word → List Word → List Word
  | none, [] => []
  | some w1, [] => [w1]
  | prev, w2 :: rest =>
      let w2a := if checkcurious term w2 then { w2 with curious := true } else w2
      if cap || checkcapital w2a then
        let w2b := { w2a with capital := true }
        match prev with
        | some w1 =>
            if w1.curious then
              if wordsAdjacent w1 w2b then guessGo cap term (some (mergeWords w1 w2b)) rest
              else w1 :: guessGo cap term (some { w2b with shifted := true }) rest
            else w1 :: guessGo cap term (some w2b) rest
        | none => guessGo cap term (some w2b) rest
      else
        match prev with
        | some w1 => w1 :: guessGo cap term (some w2a) rest
        | none => guessGo cap term (some w2a) rest

/-- The guess pass over the whole word list. -/
def guessPass (cap : Bool) (term : List Char) (ws : List Word) : List Word :=
  guessGo cap term none ws

/-! ## The too-long-word pass (lines 399-436) -/

/-- The too-long-word pass: with `report` set, fail on the first word
longer than `L`, quoting at most `errmsg_size - 17` of its bytes (lines
401-410); otherwise split every over-long word in place (lines 411-436). -/
def wordPass (report : Bool) (L : Int) (ws : List Word) : Except ErrMsg (List Word) :=
  if report then
    match ws.find? (fun w => (w.wlen : Int) > L) with
    | some w => .error (.wordTooLong (w.chrs.take (errmsgSize - 17)))
    | none => .ok ws
  else .ok (ws.flatMap (splitWord L.toNat))

/-! ## Output-line construction (reformat.c lines 444-522) -/

/-- The lines chosen by an optimizer, read off the `nextline` chain from
the first word: each entry is the words of one output line together with
the flag "this line's `nextline` is NULL" (it is the last line of the
chain). -/
def chainLinesF : Nat → List (Word × Cell) → List (List Word × Bool)
  | _, [] => []
  | 0, _ :: _ => []
  | fuel + 1, (w, c) :: rest =>
      match c.nl with
      | none => [(w :: rest.map Prod.fst, true)]
      | some t => (w :: (rest.take t).map Prod.fst, false) :: chainLinesF fuel (rest.drop t)

/-- The `nextline` chain walk, with fuel `≥` the list length (each step
consumes at least the line's first word). -/
def chainLines (l : List (Word × Cell)) : List (List Word × Bool) :=
  chainLinesF l.length l

/-- The `touch` recomputation of `L` (lines 446-456): the length of the
longest chosen line. -/
def maxLinelen (chains : List (List Word × Bool)) : Nat :=
  (chains.map (fun p => seglen p.1)).foldl max 0

/-- The space distribution of justification (lines 499-505): at each gap
the phase accumulator grows by `extra` and one extra space is emitted per
`numgaps` it contains; returns the new phase and the number of spaces. -/
def phaseStep (numgaps : Nat) (tot : Int) : Int × Nat :=
  if tot ≥ (numgaps : Int) then (tot % (numgaps : Int), (tot / (numgaps : Int)).toNat)
  else (tot, 0)

/-- The inter-word output of one line after its first word: for each
further word one space, then (when justifying this line) the phase-driven
extra spaces, then one more space if the word is shifted, then the word
(lines 493-507). -/
def bodyGaps (jActive : Bool) (extra : Int) (numgaps : Nat) (phase : Int) :
    List Word → List Char
  | [] => []
  | w2 :: rs =>
      ' ' :: (List.replicate (if jActive then (phaseStep numgaps (phase + extra)).2 else 0) ' '
          ++ (if w2.shifted then [' '] else []) ++ w2.chrs)
        ++ bodyGaps jActive extra numgaps
            (if jActive then (phaseStep numgaps (phase + extra)).1 else phase) rs

/-- The body bytes of one output line (the `if (w1)` block of lines
491-508); the phase accumulator starts at `numgaps / 2`. -/
def bodyChars (ws : List Word) (jActive : Bool) (extra : Int) (numgaps : Nat) : List Char :=
  match ws with
  | [] => []
  | w :: rest => w.chrs ++ bodyGaps jActive extra numgaps ((numgaps : Int) / 2) rest

/-- The allocated length of one output line (the `linelen` expression of
lines 470-472): `L + affix` when there is a suffix or the line is
justified with a following line (or `last` set); else `prefix + L - extra`
for a line with words (which is `prefix` plus the line's word length) and
`prefix` for a padding line past the last word.  For a padding line the C
code reads the stale `w2` left by the last word line, which is that line's
NULL `nextline` (there is no word line only when the word list is empty,
where the C value is indeterminate; the model uses NULL). -/
def lineOutLen (pfxLen sfxLen : Nat) (L : Int) (just lastB : Bool)
    (info : Option (List Word × Bool)) : Int :=
  if sfxLen ≠ 0 ∨
      (just && ((match info with
        | some (_, isTerm) => !isTerm
        | none => false) || lastB)) then L + ((pfxLen : Int) + sfxLen)
  else
    match info with
    | some (ws, _) => (pfxLen : Int) + L - (L - (seglen ws : Int))
    | none => (pfxLen : Int)

/-- The prefix bytes of output line `i` (0-based; lines 482-489): from the
matching input line while any remain, else from the last input line, and
past `hang` lines copied only up to the (clamped) augmented fallback
prefix length, space-padded to `pfxLen`. -/
def prefixPart (lines : List (List Char)) (numin hang afp pfxLen : Nat) (i : Nat) :
    List Char :=
  if i < numin then (lines.getD i []).take pfxLen
  else if numin > hang then (lines.getD (numin - 1) []).take pfxLen
  else
    (lines.getD (numin - 1) []).take (min afp pfxLen) ++
      List.replicate (pfxLen - min afp pfxLen) ' '

/-- The suffix bytes of input line `l` (the `suffixes` pointers of lines
336-346): its last `sfxLen` bytes. -/
def suffixOf (l : List Char) (sfxLen : Nat) : List Char := l.drop (l.length - sfxLen)

/-- The suffix bytes of output line `i` (lines 511-519), mirroring
`prefixPart` with the fallback suffix length `fs`. -/
def suffixPart (lines : List (List Char)) (numin hang fs sfxLen : Nat) (i : Nat) :
    List Char :=
  if i < numin then suffixOf (lines.getD i []) sfxLen
  else if numin > hang then suffixOf (lines.getD (numin - 1) []) sfxLen
  else
    (suffixOf (lines.getD (numin - 1) []) sfxLen).take (min fs sfxLen) ++
      List.replicate (sfxLen - min fs sfxLen) ' '

/-- The body bytes of one output line given its chain entry (the
`if (w1)` block of the construction loop). -/
def buildBody (L : Int) (just lastB : Bool) (info : Option (List Word × Bool)) :
    List Char :=
  match info with
  | some (ws, isTerm) =>
      bodyChars ws (just && (!isTerm || lastB)) (L - (seglen ws : Int)) (ws.length - 1)
  | none => []

/-- One output line (the body of the construction loop, lines 465-521):
prefix bytes, body, space padding of the body region up to
`linelen - affix`, suffix bytes. -/
def buildOne (lines : List (List Char)) (numin hang afp fs pfxLen sfxLen : Nat)
    (L : Int) (just lastB : Bool) (i : Nat) (info : Option (List Word × Bool)) :
    List Char :=
  prefixPart lines numin hang afp pfxLen i ++ buildBody L just lastB info ++
    List.replicate ((lineOutLen pfxLen sfxLen L just lastB info - ((pfxLen : Int) + sfxLen)).toNat
      - (buildBody L just lastB info).length) ' ' ++
    suffixPart lines numin hang fs sfxLen i

/-- All output lines: `max hang (number of chosen lines)` of them (the
`while (numout < hang || w1)` loop). -/
def assemble (lines : List (List Char)) (numin hang afp fs pfxLen sfxLen : Nat)
    (L : Int) (just lastB : Bool) (chains : List (List Word × Bool)) :
    List (List Char) :=
  (List.range (max hang chains.length)).map fun i =>
    buildOne lines numin hang afp fs pfxLen sfxLen L just lastB i chains[i]?

/-! ## `reformat` (reformat.c lines 297-550) -/

/-- The word list handed to the optimizers: tokenization followed by the
guess pass when `guess` is set. -/
def reformatWords (lines : List (List Char)) (pfxLen sfxLen : Nat) (cap guess : Bool)
    (term : List Char) : List Word :=
  if guess then guessPass cap term (tokenizeIP lines pfxLen sfxLen)
  else tokenizeIP lines pfxLen sfxLen

/-- The optimizer dispatch of reformat.c lines 440-441. -/
def reformatBreaks (L : Int) (fit just lastB : Bool) (ws : List Word) :
    Except ErrMsg (List Cell) :=
  if just then justbreaks L lastB ws else normalbreaks L fit lastB ws

/-- The width used by line assembly: recomputed from the chosen lines in
`touch` mode without justification (lines 446-456), else `L`. -/
def reformatL2 (L : Int) (just touch : Bool) (chains : List (List Word × Bool)) : Int :=
  if !just && touch then (maxLinelen chains : Int) else L

/-- `reformat`: the whole pipeline.  Out-of-memory paths of the C code
cannot occur in the model; all other error paths are preserved.  Booleans
stand for the nonzero-ness of the C `int` flags; `L` is the `Int` value
`width - prefix - suffix` of the C computation. -/
def reformat (lines : List (List Char)) (afp fs hang pfxLen sfxLen width : Nat)
    (cap fit guess just lastB report touch : Bool) (term : List Char) :
    Except ErrMsg (List (List Char)) :=
  if lines.length = 0 then .error (.impossibility 4)
  else
    match lineTooShortIdx pfxLen sfxLen lines 1 with
    | some k => .error (.lineTooShort k pfxLen sfxLen)
    | none =>
        match wordPass report ((width : Int) - pfxLen - sfxLen)
            (reformatWords lines pfxLen sfxLen cap guess term) with
        | .error e => .error e
        | .ok ws =>
            match reformatBreaks ((width : Int) - pfxLen - sfxLen) fit just lastB ws with
            | .error e => .error e
            | .ok cells =>
                .ok (assemble lines lines.length hang afp fs pfxLen sfxLen
                      (reformatL2 ((width : Int) - pfxLen - sfxLen) just touch
                        (chainLines (ws.zip cells)))
                      just lastB (chainLines (ws.zip cells)))

/-! # Claim C2: bodiless classification of `delimit` -/

/-- C2 (counterexample): the claimed characterization fails at the line
`"---"` with `pre = suf = 0` and `repeat = 0`: the body is `---`, its
repeated character is `'-' ≠ ' '`, every body byte equals it, and
`repeat = 0`, so the claim predicts bodiless - but `delimit` clears
L_BODILESS exactly when `repeat` is zero and `rc ≠ ' '`. -/
theorem delimitBodiless_repeat0_cex :
    ¬ (delimitBodiless ['-', '-', '-'] 0 0 0 = true ↔
        (let body := ((['-', '-', '-'] : List Char).take (3 - 0)).drop 0
         let rc := body.headD ' '
         (rc = ' ' ∧ body.all (fun c => c = rc) = true) ∨
         (rc ≠ ' ' ∧ body.all (fun c => c = rc) = true ∧
           ((0 : Nat) = 0 ∨ 0 ≤ body.length)))) := by
  decide

/-- C2 (amended): for every line of a group delimited with common prefix
length `pre` and common suffix length `suf`, with `body = line[pre .. len - suf]`
and `rc` the first byte of `body` (space if empty), `delimit` marks the
line bodiless iff either (`rc = ' '` and every body byte equals `rc`) or
(`rc ≠ ' '`, every body byte equals `rc`, and `repeat ≠ 0` and
`|body| ≥ repeat`). -/
theorem delimitBodiless_characterization (line : List Char) (pre suf rep : Nat) :
    delimitBodiless line pre suf rep = true ↔
      (let body := (line.take (line.length - suf)).drop pre
       let rc := body.headD ' '
       (rc = ' ' ∧ body.all (fun c => c = rc) = true) ∨
       (rc ≠ ' ' ∧ body.all (fun c => c = rc) = true ∧ rep ≠ 0 ∧ rep ≤ body.length)) := by
  unfold delimitBodiless
  simp only []
  set body := (line.take (line.length - suf)).drop pre with hbody
  set rc := body.headD ' ' with hrc
  by_cases h1 : rc = ' '
  · simp [h1]
  · by_cases h2 : rep = 0
    · simp [h1, h2]
    · by_cases h3 : body.length < rep
      · simp only [h1, h2, h3]
        simp [h1, h2]
        omega
      · simp only [h1, h2, h3]
        simp [h1, h2]
        omega

/-! # Claim C4: the pass-2 cost term of `justbreaks` -/

/-- C4: for `numgaps ≥ 1`, with `q = extra / numgaps` and
`r = extra % numgaps`, the pass-2 cost `q * (extra + r) + r` added by
`justbreaks` equals the sum of the squares of the per-gap extra-space
counts when `r` gaps get `q + 1` extra spaces and the other
`numgaps - r` gaps get `q`. -/
theorem pass2cost_eq_sum_squares (extra numgaps : Nat) (h : 1 ≤ numgaps) :
    pass2cost extra numgaps =
      (extra % numgaps) * (extra / numgaps + 1) ^ 2 +
        (numgaps - extra % numgaps) * (extra / numgaps) ^ 2 := by
  have hr : extra % numgaps < numgaps := Nat.mod_lt _ h
  have h0 : numgaps * (extra / numgaps) + extra % numgaps = extra :=
    Nat.div_add_mod extra numgaps
  unfold pass2cost
  generalize hq : extra / numgaps = q at *
  generalize hrr : extra % numgaps = r at *
  subst h0
  zify [hr.le]
  ring

/-- C4 (witness): the identity at `extra = 7`, `numgaps = 3`
(`q = 2`, `r = 1`). -/
theorem pass2cost_eq_sum_squares_witness :
    1 ≤ 3 ∧
      pass2cost 7 3 = (7 % 3) * (7 / 3 + 1) ^ 2 + (3 - 7 % 3) * (7 / 3) ^ 2 :=
  ⟨by decide, pass2cost_eq_sum_squares 7 3 (by decide)⟩

/-! # Claim C8: the bare `w` flag -/

/-- C8 (counterexample): parsing the flag `w` with no attached number sets
the width to 79, not to the no-flag default 72 the claim states. -/
theorem parsearg_bare_w_cex :
    ParseResult.widthOf (parsearg defaultOpts ['w']) = some 79 ∧ (79 : Int) ≠ 72 := by
  constructor
  · rfl
  · decide

/-- C8 (amended): a `w` flag with no attached numeric argument sets the
target width to 79 (whatever the previous options were), while the width
is 72 only when no `w` flag is given at all (the initialization of
`main`). -/
theorem parsearg_bare_w_width :
    (∀ o : Opts, ParseResult.widthOf (parsearg o ['w']) = some 79) ∧
      defaultOpts.width = 72 := by
  exact ⟨fun o => rfl, rfl⟩

/-! # Claim C6: the too-long-word splitting pass -/

/-- The conjunction of per-word facts about a splitting result `ps` of
the word `w`: every piece fits in `L`; the pieces tile the original bytes
in order; all pieces but the last have length exactly `L`; the first
piece keeps the word's W_CAPITAL and W_SHIFTED; later pieces carry
neither; an over-long word yields at least two pieces. -/
def SplitSpec (L : Nat) (w : Word) (ps : List Word) : Prop :=
  (∀ p ∈ ps, p.chrs.length ≤ L) ∧
  (ps.map Word.chrs).flatten = w.chrs ∧
  ps ≠ [] ∧
  (∀ pre x post, ps = pre ++ x :: post → post ≠ [] → x.chrs.length = L) ∧
  (ps.headD w).capital = w.capital ∧
  (ps.headD w).shifted = w.shifted ∧
  (∀ pre x post, ps = pre ++ x :: post → pre ≠ [] →
    x.capital = false ∧ x.shifted = false) ∧
  (L < w.chrs.length → 2 ≤ ps.length)

/-- A word that already fits is its own splitting. -/
theorem splitSpec_singleton (L : Nat) (w : Word) (hlen : w.chrs.length ≤ L) :
    SplitSpec L w [w] := by
  unfold SplitSpec
  refine ⟨?_, by simp, by simp, ?_, by simp, by simp, ?_, ?_⟩
  · intro p hp
    simp only [List.mem_singleton] at hp
    subst hp; exact hlen
  · intro pre x post hsp hpost
    rcases pre with _ | ⟨a, pre⟩
    · simp only [List.nil_append, List.cons.injEq] at hsp
      exact absurd hsp.2.symm hpost
    · have hl := congrArg List.length hsp
      simp at hl
  · intro pre x post hsp hpre
    rcases pre with _ | ⟨a, pre⟩
    · exact absurd rfl hpre
    · have hl := congrArg List.length hsp
      simp at hl
  · intro hc
    exact absurd hc (by omega)

/-- The splitting loop satisfies `SplitSpec` whenever its fuel covers the
word's length. -/
theorem splitWordGo_parts (L : Nat) (hL : 1 ≤ L) :
    ∀ fuel w, w.chrs.length ≤ fuel → SplitSpec L w (splitWordGo L fuel w) := by
  intro fuel
  induction fuel with
  | zero =>
      intro w hw
      exact splitSpec_singleton L w (by omega)
  | succ fuel ih =>
      intro w hw
      rw [splitWordGo]
      split
      case isTrue h =>
        exact splitSpec_singleton L w (by omega)
      case isFalse h =>
        have h1 : L < w.chrs.length := by omega
        have h2 : L ≠ 0 := by omega
        set w2 : Word := { line := w.line, start := w.start + L, chrs := w.chrs.drop L,
                           shifted := false, curious := w.curious, capital := false } with hw2
        have hfu : w2.chrs.length ≤ fuel := by
          simp [hw2]; omega
        have IH := ih w2 hfu
        unfold SplitSpec at IH
        obtain ⟨ih1, ih2, ih3, ih4, ih5, ih6, ih7, ih8⟩ := IH
        have htake : (w.chrs.take L).length = L := by
          simp [List.length_take]; omega
        unfold SplitSpec
        refine ⟨?_, ?_, by simp, ?_, by simp, by simp, ?_, ?_⟩
        · intro p hp
          rcases List.mem_cons.mp hp with hp | hp
          · subst hp; simp [htake]
          · exact ih1 p hp
        · simp only [List.map_cons, List.flatten_cons, ih2, hw2]
          exact List.take_append_drop L w.chrs
        · intro pre x post hsp hpost
          rcases pre with _ | ⟨a, pre⟩
          · simp only [List.nil_append, List.cons.injEq] at hsp
            rcases hsp with ⟨hx, hrest⟩
            subst hx
            rcases post with _ | _
            · exact absurd rfl hpost
            · exact htake
          · simp only [List.cons_append, List.cons.injEq] at hsp
            exact ih4 pre x post hsp.2 hpost
        · intro pre x post hsp hpre
          rcases pre with _ | ⟨a, pre⟩
          · exact absurd rfl hpre
          · simp only [List.cons_append, List.cons.injEq] at hsp
            rcases pre with _ | ⟨b, pre⟩
            · rcases hsw : splitWordGo L fuel w2 with _ | ⟨y, ys⟩
              · exact absurd hsw ih3
              · rw [hsw] at hsp ih5 ih6
                simp only [List.nil_append, List.cons.injEq] at hsp
                rcases hsp with ⟨_, hx, _⟩
                subst hx
                simp only [List.headD_cons] at ih5 ih6
                exact ⟨ih5, ih6⟩
            · exact ih7 (b :: pre) x post hsp.2 (by simp)
        · intro _
          rcases hsw : splitWordGo L fuel w2 with _ | ⟨y, ys⟩
          · exact absurd hsw ih3
          · simp [hsw]

/-- `splitWord` satisfies `SplitSpec`. -/
theorem splitWord_parts (L : Nat) (hL : 1 ≤ L) (w : Word) :
    SplitSpec L w (splitWord L w) :=
  splitWordGo_parts L hL w.chrs.length w (le_refl _)

/-- The byte streams of a word list before and after the splitting pass
coincide. -/
theorem splitPass_flatten (L : Nat) (hL : 1 ≤ L) :
    ∀ ws : List Word,
      ((ws.flatMap (splitWord L)).map Word.chrs).flatten = (ws.map Word.chrs).flatten
  | [] => by simp
  | w :: ws => by
      have h := (splitWord_parts L hL w).2.1
      have ih := splitPass_flatten L hL ws
      simp only [List.flatMap_cons, List.map_cons, List.flatten_cons, List.map_append,
        List.flatten_append, h, ih]

/-- C6: with `Report = 0` the pass succeeds, every word of the result has
length at most `L = width - prefix - suffix`, the byte stream of the list
is unchanged (words are replaced in place, in original byte order), and
each over-long word becomes length-`L` pieces plus a tail of length
`≤ L`, the first piece carrying the original's W_SHIFTED and W_CAPITAL
and every later piece carrying neither. -/
theorem wordPass_report0_spec (L : Nat) (hL : 1 ≤ L) (w : Word) (ws : List Word) :
    wordPass false (L : Int) ws = .ok (ws.flatMap (splitWord L)) ∧
    (∀ v ∈ ws.flatMap (splitWord L), v.chrs.length ≤ L) ∧
    ((ws.flatMap (splitWord L)).map Word.chrs).flatten = (ws.map Word.chrs).flatten ∧
    ((splitWord L w).map Word.chrs).flatten = w.chrs ∧
    (∀ pre x post, splitWord L w = pre ++ x :: post → post ≠ [] → x.chrs.length = L) ∧
    (∀ p ∈ splitWord L w, p.chrs.length ≤ L) ∧
    ((splitWord L w).headD w).capital = w.capital ∧
    ((splitWord L w).headD w).shifted = w.shifted ∧
    (∀ pre x post, splitWord L w = pre ++ x :: post → pre ≠ [] →
      x.capital = false ∧ x.shifted = false) ∧
    (L < w.chrs.length → 2 ≤ (splitWord L w).length) := by
  have hsp := splitWord_parts L hL w
  unfold SplitSpec at hsp
  obtain ⟨h1, h2, h3, h4, h5, h6, h7, h8⟩ := hsp
  refine ⟨?_, ?_, splitPass_flatten L hL ws, h2, h4, h1, h5, h6, h7, h8⟩
  · simp [wordPass]
  · intro v hv
    rcases List.mem_flatMap.mp hv with ⟨u, hu, hvu⟩
    have hu2 := splitWord_parts L hL u
    unfold SplitSpec at hu2
    exact hu2.1 v hvu

/-- A sample over-long word for the C6 witness: `abcde`, shifted, curious
and capitalized. -/
def wordPassW6 : Word :=
  { line := 0, start := 0, chrs := ['a', 'b', 'c', 'd', 'e'],
    shifted := true, curious := true, capital := true }

/-- C6 (witness): the pass at `L = 2` on the word `abcde` (with both flag
bits set) and the singleton list containing it. -/
theorem wordPass_report0_spec_witness :
    1 ≤ 2 ∧
      (wordPass false ((2 : Nat) : Int) [wordPassW6] = .ok ([wordPassW6].flatMap (splitWord 2)) ∧
      (∀ v ∈ [wordPassW6].flatMap (splitWord 2), v.chrs.length ≤ 2) ∧
      (([wordPassW6].flatMap (splitWord 2)).map Word.chrs).flatten =
        ([wordPassW6].map Word.chrs).flatten ∧
      ((splitWord 2 wordPassW6).map Word.chrs).flatten = wordPassW6.chrs ∧
      (∀ pre x post, splitWord 2 wordPassW6 = pre ++ x :: post → post ≠ [] →
        x.chrs.length = 2) ∧
      (∀ p ∈ splitWord 2 wordPassW6, p.chrs.length ≤ 2) ∧
      ((splitWord 2 wordPassW6).headD wordPassW6).capital = wordPassW6.capital ∧
      ((splitWord 2 wordPassW6).headD wordPassW6).shifted = wordPassW6.shifted ∧
      (∀ pre x post, splitWord 2 wordPassW6 = pre ++ x :: post → pre ≠ [] →
        x.capital = false ∧ x.shifted = false) ∧
      (2 < wordPassW6.chrs.length → 2 ≤ (splitWord 2 wordPassW6).length)) :=
  ⟨by decide, wordPass_report0_spec 2 (by decide) wordPassW6 [wordPassW6]⟩

/-! # Stage lemmas for the `reformat` pipeline -/

/-- The too-short scan succeeds exactly when every line is at least
`pfxLen + sfxLen` long. -/
theorem lineTooShortIdx_none (p s : Nat) :
    ∀ ls k, lineTooShortIdx p s ls k = none ↔ ∀ l ∈ ls, p + s ≤ l.length := by
  intro ls
  induction ls with
  | nil => intro k; simp [lineTooShortIdx]
  | cons l ls ih =>
      intro k
      simp only [lineTooShortIdx]
      by_cases h : l.length < p + s
      · simp only [if_pos h]
        constructor
        · intro hc; exact absurd hc (by simp)
        · intro hall
          exact absurd (hall l (by simp)) (by omega)
      · simp only [if_neg h, ih]
        constructor
        · intro hall
          intro x hx
          rcases List.mem_cons.mp hx with hx | hx
          · subst hx; omega
          · exact hall x hx
        · intro hall x hx
          exact hall x (List.mem_cons_of_mem _ hx)

/-- What a hit of the too-short scan means: the reported index is 1-based
from `k`, points at a too-short line, and every earlier line is long
enough. -/
theorem lineTooShortIdx_some_spec (p s : Nat) :
    ∀ ls k j, lineTooShortIdx p s ls k = some j →
      k ≤ j ∧ j - k < ls.length ∧ (ls.getD (j - k) []).length < p + s ∧
        ∀ i < j - k, p + s ≤ (ls.getD i []).length := by
  intro ls
  induction ls with
  | nil => intro k j h; simp [lineTooShortIdx] at h
  | cons l ls ih =>
      intro k j h
      simp only [lineTooShortIdx] at h
      by_cases hl : l.length < p + s
      · rw [if_pos hl] at h
        have hj : j = k := by simpa using h.symm
        subst hj
        refine ⟨le_refl _, by simp, by simpa, ?_⟩
        intro i hi
        omega
      · rw [if_neg hl] at h
        obtain ⟨h1, h2, h3, h4⟩ := ih (k + 1) j h
        have hjk : 1 ≤ j - k := by omega
        refine ⟨by omega, by simp; omega, ?_, ?_⟩
        · have : j - k = (j - (k + 1)) + 1 := by omega
          rw [this]
          simpa using h3
        · intro i hi
          match i with
          | 0 => simpa using (by omega : p + s ≤ l.length)
          | i + 1 =>
              have : i < j - (k + 1) := by omega
              simpa using h4 i this

/-- The word pass only reports "Word too long", with an excerpt of at most
`errmsg_size - 17` bytes. -/
theorem wordPass_error_shape (report : Bool) (L : Int) (ws : List Word) (e : ErrMsg) :
    wordPass report L ws = .error e →
      ∃ ex, e = .wordTooLong ex ∧ ex.length ≤ errmsgSize - 17 := by
  intro h
  unfold wordPass at h
  split at h
  · split at h
    case h_1 w heq =>
      refine ⟨w.chrs.take (errmsgSize - 17), ?_, by simp⟩
      cases h; rfl
    case h_2 => cases h
  · cases h

/-- `normalbreaks` only reports impossibilities 1 and 2. -/
theorem normalbreaks_error_shape (L : Int) (fit last : Bool) (ws : List Word) (e : ErrMsg) :
    normalbreaks L fit last ws = .error e →
      e = .impossibility 1 ∨ e = .impossibility 2 := by
  intro h
  simp only [normalbreaks] at h
  split at h
  · cases h
  · split at h
    · cases h; exact Or.inl rfl
    · split at h
      · cases h; exact Or.inr rfl
      · cases h

/-- `justbreaks` only reports "Cannot justify." and impossibility 3. -/
theorem justbreaks_error_shape (L : Int) (last : Bool) (ws : List Word) (e : ErrMsg) :
    justbreaks L last ws = .error e →
      e = .cannotJustify ∨ e = .impossibility 3 := by
  intro h
  simp only [justbreaks] at h
  split at h
  · cases h
  · split at h
    · cases h; exact Or.inl rfl
    · split at h
      · cases h; exact Or.inr rfl
      · cases h

/-- Auxiliary: an in-range `getD` yields a member of the list. -/
theorem getD_mem_of_lt {α : Type} :
    ∀ (l : List α) (i : Nat) (d : α), i < l.length → l.getD i d ∈ l
  | a :: l, 0, d, _ => by simp
  | a :: l, i + 1, d, h => by
      have := getD_mem_of_lt l i d (by simpa using h)
      simpa using Or.inr this

/-- The optimizer dispatch only reports impossibilities 1-3 and "Cannot
justify.". -/
theorem reformatBreaks_error_shape (L : Int) (fit just lastB : Bool) (ws : List Word)
    (e : ErrMsg) :
    reformatBreaks L fit just lastB ws = .error e →
      e = .impossibility 1 ∨ e = .impossibility 2 ∨ e = .impossibility 3 ∨
        e = .cannotJustify := by
  intro h
  unfold reformatBreaks at h
  split at h
  · rcases justbreaks_error_shape _ _ _ _ h with h2 | h2
    · exact Or.inr (Or.inr (Or.inr h2))
    · exact Or.inr (Or.inr (Or.inl h2))
  · rcases normalbreaks_error_shape _ _ _ _ _ h with h2 | h2
    · exact Or.inl h2
    · exact Or.inr (Or.inl h2)

/-- Every error `reformat` can report, with the bounds its data satisfies:
an impossibility number at most 4, a too-short line number within the
input, a word excerpt of at most `errmsg_size - 17` bytes, or "Cannot
justify.". -/
theorem reformat_error_shapes (lines : List (List Char))
    (afp fs hang pfxLen sfxLen width : Nat)
    (cap fit guess just lastB report touch : Bool) (term : List Char) (e : ErrMsg) :
    reformat lines afp fs hang pfxLen sfxLen width cap fit guess just lastB report touch term
        = .error e →
      (∃ n, e = .impossibility n ∧ n ≤ 4) ∨
      (∃ k, e = .lineTooShort k pfxLen sfxLen ∧ 1 ≤ k ∧ k ≤ lines.length) ∨
      (∃ ex, e = .wordTooLong ex ∧ ex.length ≤ errmsgSize - 17) ∨
      e = .cannotJustify := by
  intro h
  simp only [reformat] at h
  split at h
  · cases h; exact Or.inl ⟨4, rfl, by omega⟩
  · split at h
    case h_1 k heq =>
      cases h
      obtain ⟨h1, h2, _, _⟩ := lineTooShortIdx_some_spec pfxLen sfxLen lines 1 k heq
      exact Or.inr (Or.inl ⟨k, rfl, h1, by omega⟩)
    case h_2 =>
      split at h
      case h_1 e2 heq =>
        cases h
        exact Or.inr (Or.inr (Or.inl (wordPass_error_shape _ _ _ _ heq)))
      case h_2 ws heq =>
        split at h
        case h_1 e2 heq2 =>
          cases h
          rcases reformatBreaks_error_shape _ _ _ _ _ _ heq2 with h3 | h3 | h3 | h3
          · exact Or.inl ⟨1, h3, by omega⟩
          · exact Or.inl ⟨2, h3, by omega⟩
          · exact Or.inl ⟨3, h3, by omega⟩
          · exact Or.inr (Or.inr (Or.inr h3))
        case h_2 => cases h

/-! # Claim C7: the "line too short" precondition -/

/-- C7: `reformat` fails with the "Line … shorter than <prefix> +
<suffix>" error exactly when some input line is shorter than
`prefix + suffix`; the message carries the given prefix and suffix
lengths and the 1-based number of the first such line (and, the result
being an error, no output lines are produced). -/
theorem reformat_lineTooShort_iff (lines : List (List Char))
    (afp fs hang pfxLen sfxLen width : Nat)
    (cap fit guess just lastB report touch : Bool) (term : List Char) :
    ((∃ k, reformat lines afp fs hang pfxLen sfxLen width cap fit guess just lastB report
        touch term = .error (.lineTooShort k pfxLen sfxLen)) ↔
      ∃ l ∈ lines, l.length < pfxLen + sfxLen) ∧
    (∀ k p s, reformat lines afp fs hang pfxLen sfxLen width cap fit guess just lastB report
        touch term = .error (.lineTooShort k p s) →
      p = pfxLen ∧ s = sfxLen ∧ 1 ≤ k ∧ k - 1 < lines.length ∧
        (lines.getD (k - 1) []).length < pfxLen + sfxLen ∧
        ∀ i < k - 1, pfxLen + sfxLen ≤ (lines.getD i []).length) := by
  constructor
  · constructor
    · rintro ⟨k, hk⟩
      rcases reformat_error_shapes lines afp fs hang pfxLen sfxLen width cap fit guess just
          lastB report touch term _ hk with ⟨n, hn, _⟩ | ⟨k2, hk2, _, _⟩ | ⟨ex, hex, _⟩ | hcj
      · cases hn
      · -- the error really came from the scan: recover the short line
        simp only [reformat] at hk
        split at hk
        · cases hk
        · split at hk
          case h_1 j heq =>
            obtain ⟨h1, h2, h3, _⟩ := lineTooShortIdx_some_spec pfxLen sfxLen lines 1 j heq
            refine ⟨lines.getD (j - 1) [], ?_, h3⟩
            exact getD_mem_of_lt lines (j - 1) [] (by omega)
          case h_2 =>
            -- no scan hit: later stages cannot produce lineTooShort
            exfalso
            split at hk
            case h_1 e2 heq2 =>
              cases hk
              obtain ⟨ex, hex, _⟩ := wordPass_error_shape _ _ _ _ heq2
              cases hex
            case h_2 ws heq2 =>
              split at hk
              case h_1 e2 heq3 =>
                cases hk
                rcases reformatBreaks_error_shape _ _ _ _ _ _ heq3 with h3 | h3 | h3 | h3 <;>
                  cases h3
              case h_2 => cases hk
      · cases hex
      · cases hcj
    · rintro ⟨l, hl, hshort⟩
      have hne : ¬ (lineTooShortIdx pfxLen sfxLen lines 1 = none) := by
        intro hc
        exact absurd ((lineTooShortIdx_none pfxLen sfxLen lines 1).mp hc l hl) (by omega)
      rcases heq : lineTooShortIdx pfxLen sfxLen lines 1 with _ | j
      · exact absurd heq hne
      · refine ⟨j, ?_⟩
        simp only [reformat]
        have hlen : ¬ lines.length = 0 := by
          intro hc
          rw [List.length_eq_zero] at hc
          subst hc
          cases hl
        rw [if_neg hlen, heq]
  · intro k p s hk
    simp only [reformat] at hk
    split at hk
    · cases hk
    · split at hk
      case h_1 j heq =>
        have hinj : k = j ∧ p = pfxLen ∧ s = sfxLen := by
          cases hk; exact ⟨rfl, rfl, rfl⟩
        obtain ⟨hkj, hp, hs⟩ := hinj
        subst hkj
        obtain ⟨h1, h2, h3, h4⟩ := lineTooShortIdx_some_spec pfxLen sfxLen lines 1 k heq
        exact ⟨hp, hs, h1, by omega, h3, h4⟩
      case h_2 =>
        exfalso
        split at hk
        case h_1 e2 heq2 =>
          cases hk
          obtain ⟨ex, hex, _⟩ := wordPass_error_shape _ _ _ _ heq2
          cases hex
        case h_2 ws heq2 =>
          split at hk
          case h_1 e2 heq3 =>
            cases hk
            rcases reformatBreaks_error_shape _ _ _ _ _ _ heq3 with h3 | h3 | h3 | h3 <;>
              cases h3
          case h_2 => cases hk

/-- C7 (witness): the input `["ab", "c"]` with `prefix = 1`, `suffix = 1`
has its second line too short, and `reformat` reports line 2. -/
theorem reformat_lineTooShort_iff_witness :
    ((∃ k, reformat [['a', 'b'], ['c']] 0 0 0 1 1 5 false false false false false false
        false [] = .error (.lineTooShort k 1 1)) ↔
      ∃ l ∈ [['a', 'b'], ['c']], l.length < 1 + 1) ∧
      (1 = 1 ∧ 1 = 1 ∧ 1 ≤ 2 ∧ 2 - 1 < 2 ∧
        (([['a', 'b'], ['c']] : List (List Char)).getD (2 - 1) []).length < 1 + 1 ∧
        ∀ i < 2 - 1, 1 + 1 ≤ (([['a', 'b'], ['c']] : List (List Char)).getD i []).length) := by
  have h := reformat_lineTooShort_iff [['a', 'b'], ['c']] 0 0 0 1 1 5 false false false
    false false false false []
  exact ⟨h.1, h.2 2 1 1 (by rfl)⟩

/-! # Claim C10: an IP whose bodies hold no words -/

/-- Tokenizing an all-space body yields no words. -/
theorem tokGoF_all_space (li : Nat) :
    ∀ body fuel pos, (∀ c ∈ body, c = ' ') → tokGoF li fuel pos body = []
  | [], fuel, pos, h => by cases fuel <;> rfl
  | c :: cs, fuel, pos, h => by
      cases fuel with
      | zero => rfl
      | succ fuel =>
          have hc : c = ' ' := h c (by simp)
          subst hc
          simp only [tokGoF, if_pos rfl]
          exact tokGoF_all_space li cs fuel (pos + 1) (fun d hd => h d (by simp [hd]))

/-- An IP all of whose line bodies are spaces tokenizes to no words. -/
theorem tokenizeGo_no_words (p s : Nat) :
    ∀ ls li found, (∀ l ∈ ls, ∀ c ∈ lineBody l p s, c = ' ') →
      tokenizeGo p s ls li found = []
  | [], li, found, h => rfl
  | l :: ls, li, found, h => by
      have hb : tokGo li p (lineBody l p s) = [] :=
        tokGoF_all_space li (lineBody l p s) (lineBody l p s).length p (h l (by simp))
      simp only [tokenizeGo, hb, adjustFirst, ite_self, List.nil_append]
      exact tokenizeGo_no_words p s ls (li + 1) _
        (fun l2 h2 c hc => h l2 (List.mem_cons_of_mem _ h2) c hc)

/-- C10: a non-empty IP whose body regions contain no words (every body
byte is a space; the lines being long enough for the affixes is part of
the body regions being well formed), with `hang = 0`, makes `reformat`
succeed with zero output lines. -/
theorem reformat_no_words (lines : List (List Char)) (afp fs pfxLen sfxLen width : Nat)
    (cap fit guess just lastB report touch : Bool) (term : List Char)
    (hne : lines ≠ [])
    (hlen : ∀ l ∈ lines, pfxLen + sfxLen ≤ l.length)
    (hsp : ∀ l ∈ lines, ∀ c ∈ lineBody l pfxLen sfxLen, c = ' ') :
    reformat lines afp fs 0 pfxLen sfxLen width cap fit guess just lastB report touch term
      = .ok [] := by
  have h0 : ¬ lines.length = 0 := by
    simpa [List.length_eq_zero] using hne
  have h1 : lineTooShortIdx pfxLen sfxLen lines 1 = none :=
    (lineTooShortIdx_none pfxLen sfxLen lines 1).mpr hlen
  have h2 : tokenizeIP lines pfxLen sfxLen = [] :=
    tokenizeGo_no_words pfxLen sfxLen lines 0 false hsp
  have h3 : reformatWords lines pfxLen sfxLen cap guess term = [] := by
    unfold reformatWords
    rw [h2]
    cases guess <;> rfl
  have h4 : wordPass report ((width : Int) - pfxLen - sfxLen) [] = .ok [] := by
    cases report <;> rfl
  have h5 : reformatBreaks ((width : Int) - pfxLen - sfxLen) fit just lastB [] = .ok [] := by
    cases just <;> rfl
  unfold reformat
  rw [if_neg h0, h1]
  simp only [h3, h4, h5]
  simp [assemble, chainLines, chainLinesF]

/-- C10 (witness): the single line `"x  "` with `prefix = 1`,
`suffix = 1` (its body is the single space in the middle). -/
theorem reformat_no_words_witness :
    ([['x', ' ', ' ']] : List (List Char)) ≠ [] ∧
      reformat [['x', ' ', ' ']] 0 0 0 1 1 6 false false false false false false false []
        = .ok [] :=
  ⟨by decide,
   reformat_no_words [['x', ' ', ' ']] 0 0 1 1 6 false false false false false false false []
     (by decide) (by decide) (by decide)⟩

/-! # Claim C9: the error-message contract -/

/-- Decimal rendering is at most `k` digits for `n < 10 ^ k`. -/
theorem natStrGo_len_le : ∀ fuel n k, n < 10 ^ k → (natStrGo fuel n).length ≤ k := by
  intro fuel
  induction fuel with
  | zero => intro n k h; simp [natStrGo]
  | succ fuel ih =>
      intro n k h
      rcases n with _ | n
      · simp [natStrGo]
      · rcases k with _ | k
        · simp only [pow_zero] at h; omega
        · rw [natStrGo]
          simp only [List.length_append, List.length_singleton]
          have h2 : (n + 1) / 10 < 10 ^ k := by
            rw [Nat.div_lt_iff_lt_mul (by norm_num)]
            calc n + 1 < 10 ^ (k + 1) := h
            _ = 10 ^ k * 10 := by ring
          have h3 := ih ((n + 1) / 10) k h2
          omega

/-- Decimal rendering of `n < 10 ^ k` (with `k ≥ 1`) is at most `k`
characters. -/
theorem natStr_len_le (n k : Nat) (hk : 1 ≤ k) (h : n < 10 ^ k) :
    (natStr n).length ≤ k := by
  unfold natStr
  split
  · simpa using hk
  · exact natStrGo_len_le (n + 1) n k h

/-- Every rendered message is nonempty. -/
theorem render_length_pos (e : ErrMsg) : 1 ≤ (ErrMsg.render e).length := by
  cases e with
  | outofmem => decide
  | impossibility n =>
      have e1 : ("Impossibility #".toList).length = 15 := rfl
      simp only [ErrMsg.render, List.length_append, e1]
      omega
  | lineTooShort k p s =>
      have e1 : ("Line ".toList).length = 5 := rfl
      simp only [ErrMsg.render, List.length_append, e1]
      omega
  | wordTooLong ex =>
      have e1 : ("Word too long: ".toList).length = 15 := rfl
      simp only [ErrMsg.render, List.length_append, e1]
      omega
  | cannotJustify => decide

/-- C9: `reformat` produces an error value exactly when the modelled
`errmsg` buffer content is a non-empty message; on success the buffer is
empty; and every message it can write fits in the 163-byte `errmsg_t`
buffer together with its terminating NUL.  The numeric hypotheses are the
value ranges of the C `int` (prefix, suffix) and `long` (line count)
quantities being printed. -/
theorem reformat_errmsg_spec (lines : List (List Char))
    (afp fs hang pfxLen sfxLen width : Nat)
    (cap fit guess just lastB report touch : Bool) (term : List Char)
    (hp : pfxLen < 10 ^ 10) (hs : sfxLen < 10 ^ 10) (hn : lines.length < 10 ^ 18) :
    ((∃ e, reformat lines afp fs hang pfxLen sfxLen width cap fit guess just lastB report
        touch term = .error e) ↔
      errmsgOf (reformat lines afp fs hang pfxLen sfxLen width cap fit guess just lastB
        report touch term) ≠ []) ∧
    (∀ out, reformat lines afp fs hang pfxLen sfxLen width cap fit guess just lastB report
        touch term = .ok out →
      errmsgOf (reformat lines afp fs hang pfxLen sfxLen width cap fit guess just lastB
        report touch term) = []) ∧
    (errmsgOf (reformat lines afp fs hang pfxLen sfxLen width cap fit guess just lastB
        report touch term)).length + 1 ≤ errmsgSize := by
  rcases hres : reformat lines afp fs hang pfxLen sfxLen width cap fit guess just lastB
      report touch term with e | out
  · have hshape := reformat_error_shapes lines afp fs hang pfxLen sfxLen width cap fit
      guess just lastB report touch term e hres
    have hbound : (ErrMsg.render e).length + 1 ≤ errmsgSize := by
      rcases hshape with ⟨n, rfl, hn4⟩ | ⟨k, rfl, hk1, hk2⟩ | ⟨ex, rfl, hex⟩ | rfl
      · simp only [ErrMsg.render, List.length_append]
        have : (natStr n).length ≤ 1 := natStr_len_le n 1 (by omega) (by omega)
        have e1 : ("Impossibility #".toList).length = 15 := rfl
        have e2 : (" has occurred.  Please report it.\n".toList).length = 34 := rfl
        rw [e1, e2]
        unfold errmsgSize
        omega
      · simp only [ErrMsg.render, List.length_append]
        have b1 : (natStr k).length ≤ 18 := natStr_len_le k 18 (by omega) (by omega)
        have b2 : (natStr pfxLen).length ≤ 10 := natStr_len_le pfxLen 10 (by omega) hp
        have b3 : (natStr sfxLen).length ≤ 10 := natStr_len_le sfxLen 10 (by omega) hs
        have b4 : (natStr (pfxLen + sfxLen)).length ≤ 11 :=
          natStr_len_le (pfxLen + sfxLen) 11 (by omega) (by omega)
        have e1 : ("Line ".toList).length = 5 := rfl
        have e2 : (" shorter than <prefix> + <suffix> = ".toList).length = 36 := rfl
        have e3 : (" + ".toList).length = 3 := rfl
        have e4 : (" = ".toList).length = 3 := rfl
        have e5 : ("\n".toList).length = 1 := rfl
        rw [e1, e2, e3, e4, e5]
        unfold errmsgSize
        omega
      · simp only [ErrMsg.render, List.length_append]
        have e1 : ("Word too long: ".toList).length = 15 := rfl
        have e2 : ("\n".toList).length = 1 := rfl
        rw [e1, e2]
        unfold errmsgSize
        unfold errmsgSize at hex
        omega
      · decide
    refine ⟨⟨fun _ => ?_, fun _ => ⟨e, rfl⟩⟩, ?_, ?_⟩
    · simp only [errmsgOf]
      have := render_length_pos e
      intro hc
      rw [hc] at this
      simp at this
    · intro out hout
      cases hout
    · simpa [errmsgOf] using hbound
  · refine ⟨⟨?_, ?_⟩, ?_, ?_⟩
    · rintro ⟨e, he⟩
      cases he
    · intro hc
      exact absurd (show errmsgOf (Except.ok (ε := ErrMsg) out) = [] from rfl) hc
    · intro out2 _
      simp [errmsgOf]
    · simp [errmsgOf, errmsgSize]

/-- C9 (witness): the bounds at a concrete failing call (second line too
short). -/
theorem reformat_errmsg_spec_witness :
    (2 : Nat) < 10 ^ 10 ∧
    ((∃ e, reformat [['a', 'b'], ['c']] 0 0 0 2 0 5 false false false false false false
        false [] = .error e) ↔
      errmsgOf (reformat [['a', 'b'], ['c']] 0 0 0 2 0 5 false false false false false
        false false []) ≠ []) ∧
    (∀ out, reformat [['a', 'b'], ['c']] 0 0 0 2 0 5 false false false false false false
        false [] = .ok out →
      errmsgOf (reformat [['a', 'b'], ['c']] 0 0 0 2 0 5 false false false false false
        false false []) = []) ∧
    (errmsgOf (reformat [['a', 'b'], ['c']] 0 0 0 2 0 5 false false false false false
        false false [])).length + 1 ≤ errmsgSize := by
  have h := reformat_errmsg_spec [['a', 'b'], ['c']] 0 0 0 2 0 5 false false false false
    false false false [] (by norm_num) (by norm_num) (by norm_num)
  exact ⟨by norm_num, h.1, h.2.1, h.2.2⟩

/-! # Output-line lengths (claims C3 and C1)

Length lemmas for the pieces of `buildOne`. -/

/-- `phaseStep` on a nonnegative total with at least one gap: the new
phase is the remainder, the emitted spaces the quotient. -/
theorem phaseStep_eq (numgaps : Nat) (hn : 1 ≤ numgaps) (tot : Int) (h : 0 ≤ tot) :
    phaseStep numgaps tot = (tot % (numgaps : Int), (tot / (numgaps : Int)).toNat) := by
  unfold phaseStep
  split
  · rfl
  · rename_i hlt
    push_neg at hlt
    rw [Int.emod_eq_of_lt h hlt, Int.ediv_eq_zero_of_lt h hlt]
    rfl

/-- Unjustified inter-word output: one `wordGap` worth of bytes per word. -/
theorem bodyGaps_length_noJust (extra : Int) (numgaps : Nat) :
    ∀ rest phase, (bodyGaps false extra numgaps phase rest).length = (rest.map wordGap).sum
  | [], _ => rfl
  | w2 :: rs, phase => by
      unfold bodyGaps
      simp only [Bool.false_eq_true, if_false, List.length_cons, List.length_append,
        List.length_replicate, bodyGaps_length_noJust extra numgaps rs phase,
        List.map_cons, List.sum_cons, wordGap, Word.wlen]
      cases w2.shifted <;> simp <;> omega

/-- Justified inter-word output: the gaps emit `(phase + k * extra) / numgaps`
extra spaces over `k` gaps when the phase starts in `[0, numgaps)`. -/
theorem bodyGaps_length_just (extra : Int) (he : 0 ≤ extra) (numgaps : Nat)
    (hn : 1 ≤ numgaps) :
    ∀ (rest : List Word) (phase : Int), 0 ≤ phase → phase < (numgaps : Int) →
      ((bodyGaps true extra numgaps phase rest).length : Int)
        = ((rest.map wordGap).sum : Nat) + (phase + rest.length * extra) / (numgaps : Int)
  | [], phase, h0, h1 => by
      simp only [bodyGaps, List.length_nil, List.map_nil, List.sum_nil, Nat.cast_zero,
        List.length_nil, Nat.cast_ofNat, CharP.cast_eq_zero, zero_mul, add_zero]
      rw [Int.ediv_eq_zero_of_lt h0 h1]
      simp
  | w2 :: rs, phase, h0, h1 => by
      have htot : (0 : Int) ≤ phase + extra := by omega
      have hnz : ((numgaps : Nat) : Int) ≠ 0 := by
        have : (1 : Int) ≤ (numgaps : Int) := by exact_mod_cast hn
        omega
      have hmn : 0 ≤ (phase + extra) % (numgaps : Int) := Int.emod_nonneg _ hnz
      have hml : (phase + extra) % (numgaps : Int) < (numgaps : Int) :=
        Int.emod_lt_of_pos _ (by omega)
      have IH := bodyGaps_length_just extra he numgaps hn rs
        ((phase + extra) % (numgaps : Int)) hmn hml
      unfold bodyGaps
      rw [phaseStep_eq numgaps hn (phase + extra) htot]
      simp only [if_pos rfl, List.length_cons, List.length_append, List.length_replicate]
      push_cast [IH]
      have hdiv0 : (0 : Int) ≤ (phase + extra) / (numgaps : Int) :=
        Int.ediv_nonneg htot (by positivity)
      rw [Int.toNat_of_nonneg hdiv0]
      have key : ((phase + extra) % (numgaps : Int) + (rs.length : Int) * extra)
            / (numgaps : Int) + (phase + extra) / (numgaps : Int)
          = (phase + ((rs.length : Int) + 1) * extra) / (numgaps : Int) := by
        have h2 : ((phase + extra) % (numgaps : Int) + (rs.length : Int) * extra
              + ((phase + extra) / (numgaps : Int)) * (numgaps : Int)) / (numgaps : Int)
            = ((phase + extra) % (numgaps : Int) + (rs.length : Int) * extra)
              / (numgaps : Int) + (phase + extra) / (numgaps : Int) :=
          Int.add_mul_ediv_right _ _ hnz
        rw [← h2]
        congr 1
        have h3 := Int.emod_add_ediv (phase + extra) (numgaps : Int)
        nlinarith [h3]
      have hfin : (if w2.shifted then [' '] else ([] : List Char)).length
          = if w2.shifted then 1 else 0 := by
        cases w2.shifted <;> rfl
      simp only [List.length_cons, List.length_append, List.length_replicate,
        List.map_cons, List.sum_cons, wordGap, Word.wlen, hfin]
      push_cast
      linarith [key]

/-- Body length of an unjustified (or terminal-unjustified) line. -/
theorem bodyChars_length_noJust (ws : List Word) (extra : Int) (numgaps : Nat) :
    (bodyChars ws false extra numgaps).length = seglen ws := by
  cases ws with
  | nil => rfl
  | cons w rest =>
      simp only [bodyChars, List.length_append, bodyGaps_length_noJust, seglen, Word.wlen]

/-- Body length of a justified line: the words plus the `extra`
distributed spaces (none when the line has a single word). -/
theorem bodyChars_length_just (ws : List Word) (extra : Int) (he : 0 ≤ extra) :
    (bodyChars ws true extra (ws.length - 1)).length
      = seglen ws + (if 2 ≤ ws.length then extra.toNat else 0) := by
  cases ws with
  | nil => simp [bodyChars, seglen]
  | cons w rest =>
      cases rest with
      | nil => simp [bodyChars, bodyGaps, seglen, Word.wlen]
      | cons w2 rs =>
          have hn : 1 ≤ (w2 :: rs).length := by simp
          have hlen : (w :: w2 :: rs).length - 1 = (w2 :: rs).length := rfl
          rw [hlen]
          have hph0 : (0 : Int) ≤ ((w2 :: rs).length : Int) / 2 := by positivity
          have hph1 : ((w2 :: rs).length : Int) / 2 < ((w2 :: rs).length : Int) := by
            have : (1 : Int) ≤ ((w2 :: rs).length : Int) := by exact_mod_cast hn
            omega
          have hb := bodyGaps_length_just extra he (w2 :: rs).length hn (w2 :: rs)
            (((w2 :: rs).length : Int) / 2) hph0 hph1
          have hdist : (((w2 :: rs).length : Int) / 2
                + ((w2 :: rs).length : Int) * extra) / ((w2 :: rs).length : Int)
              = extra := by
            have hnz : (((w2 :: rs).length : Nat) : Int) ≠ 0 := by
              have : (1 : Int) ≤ ((w2 :: rs).length : Int) := by exact_mod_cast hn
              omega
            rw [mul_comm, Int.add_mul_ediv_right _ _ hnz,
              Int.ediv_eq_zero_of_lt hph0 hph1]
            omega
          rw [hdist] at hb
          have h2 : 2 ≤ (w :: w2 :: rs).length := by simp
          rw [if_pos h2]
          have : ((bodyChars (w :: w2 :: rs) true extra (w2 :: rs).length).length : Int)
              = ((seglen (w :: w2 :: rs) : Nat) : Int) + extra := by
            simp only [bodyChars, List.length_append, seglen, Word.wlen]
            push_cast [hb]
            ring
          omega

/-- The prefix part of every output line is exactly `pfxLen` bytes. -/
theorem prefixPart_length (lines : List (List Char)) (numin hang afp pfxLen i : Nat)
    (hnum : numin = lines.length) (h1 : 1 ≤ numin)
    (hlen : ∀ l ∈ lines, pfxLen ≤ l.length) :
    (prefixPart lines numin hang afp pfxLen i).length = pfxLen := by
  have hlast : pfxLen ≤ (lines.getD (numin - 1) []).length :=
    hlen _ (getD_mem_of_lt lines (numin - 1) [] (by omega))
  unfold prefixPart
  split
  · rename_i h
    have := hlen _ (getD_mem_of_lt lines i [] (by omega))
    simp only [List.length_take]
    omega
  · split
    · simp only [List.length_take]
      omega
    · simp only [List.length_take, List.length_append, List.length_replicate]
      omega

/-- The suffix part of every output line is exactly `sfxLen` bytes. -/
theorem suffixPart_length (lines : List (List Char)) (numin hang fs sfxLen i : Nat)
    (hnum : numin = lines.length) (h1 : 1 ≤ numin)
    (hlen : ∀ l ∈ lines, sfxLen ≤ l.length) :
    (suffixPart lines numin hang fs sfxLen i).length = sfxLen := by
  have hlast : sfxLen ≤ (lines.getD (numin - 1) []).length :=
    hlen _ (getD_mem_of_lt lines (numin - 1) [] (by omega))
  unfold suffixPart suffixOf
  split
  · rename_i h
    have := hlen _ (getD_mem_of_lt lines i [] (by omega))
    simp only [List.length_drop]
    omega
  · split
    · simp only [List.length_drop]
      omega
    · simp only [List.length_drop, List.length_append, List.length_take,
        List.length_replicate]
      omega

/-- C3 (amended): the byte length of every assembled output line equals
the `linelen` expression of reformat.c lines 470-472 (`lineOutLen`):
`L + prefix + suffix` when there is a suffix or the line is justified
with a following line or `last` set; otherwise `prefix + L - extra` for a
line with words and `prefix` for a padding line.  (The claim's version -
`prefix + L - extra` exactly when `just = 0` and `suffix = 0` - is wrong
for the justified terminal line with `last = 0`.) -/
theorem buildOne_length (lines : List (List Char)) (numin hang afp fs pfxLen sfxLen : Nat)
    (L : Int) (just lastB : Bool) (i : Nat) (info : Option (List Word × Bool))
    (hnum : numin = lines.length) (h1 : 1 ≤ numin)
    (hplen : ∀ l ∈ lines, pfxLen + sfxLen ≤ l.length)
    (hinfo : ∀ ws isTerm, info = some (ws, isTerm) → (seglen ws : Int) ≤ L)
    (hL : 0 ≤ L) :
    ((buildOne lines numin hang afp fs pfxLen sfxLen L just lastB i info).length : Int)
      = lineOutLen pfxLen sfxLen L just lastB info := by
  have hgen : ∀ l ∈ lines, pfxLen ≤ l.length := fun l hl => by
    have := hplen l hl; omega
  have hgen2 : ∀ l ∈ lines, sfxLen ≤ l.length := fun l hl => by
    have := hplen l hl; omega
  have hp := prefixPart_length lines numin hang afp pfxLen i hnum h1 hgen
  have hq := suffixPart_length lines numin hang fs sfxLen i hnum h1 hgen2
  rcases info with _ | ⟨ws, isTerm⟩
  · simp only [buildOne, buildBody, lineOutLen, List.length_append, hp, hq,
      List.length_replicate, List.length_nil]
    by_cases hc : sfxLen ≠ 0 ∨ (just && (false || lastB)) = true
    · rw [if_pos hc]
      push_cast
      omega
    · rw [if_neg hc]
      have hs0 : sfxLen = 0 := by
        by_contra hs
        exact hc (Or.inl hs)
      subst hs0
      push_cast
      omega
  · have hws : (seglen ws : Int) ≤ L := hinfo ws isTerm rfl
    have hbody : ((bodyChars ws (just && (!isTerm || lastB)) (L - (seglen ws : Int))
          (ws.length - 1)).length : Int) ≤ L ∧
        ((just && (!isTerm || lastB)) = false →
          (bodyChars ws (just && (!isTerm || lastB)) (L - (seglen ws : Int))
            (ws.length - 1)).length = seglen ws) := by
      by_cases hja : (just && (!isTerm || lastB)) = true
      · rw [hja]
        have := bodyChars_length_just ws (L - (seglen ws : Int)) (by omega)
        rw [this]
        constructor
        · split
          · push_cast
            omega
          · push_cast
            omega
        · intro hcon
          cases hcon
      · have hjaf : (just && (!isTerm || lastB)) = false := by
          cases h : (just && (!isTerm || lastB))
          · rfl
          · exact absurd h hja
        rw [hjaf]
        rw [bodyChars_length_noJust]
        exact ⟨by exact_mod_cast hws, fun _ => rfl⟩
    simp only [buildOne, buildBody, lineOutLen, List.length_append, hp, hq,
      List.length_replicate]
    by_cases hc : sfxLen ≠ 0 ∨ (just && (!isTerm || lastB)) = true
    · rw [if_pos hc]
      have hb := hbody.1
      push_cast
      omega
    · rw [if_neg hc]
      have hjaf : (just && (!isTerm || lastB)) = false := by
        cases h : (just && (!isTerm || lastB))
        · rfl
        · exact absurd (Or.inr h) hc
      have hb := hbody.2 hjaf
      have hs0 : sfxLen = 0 := by
        by_contra hs
        exact hc (Or.inl hs)
      subst hs0
      rw [hb]
      push_cast
      omega

/-- C3 (witness): a concrete assembled line - the terminal line `cc` of a
justified paragraph with `last = 0` and no suffix - has length
`prefix + L - extra = 2`, matching `lineOutLen`. -/
theorem buildOne_length_witness :
    (1 : Nat) = ([['c', 'c', ' ']] : List (List Char)).length ∧
    ((buildOne [['c', 'c', ' ']] 1 0 0 0 0 0 5 true false 0
        (some ([⟨0, 0, ['c', 'c'], false, false, false⟩], true))).length : Int)
      = lineOutLen 0 0 5 true false (some ([⟨0, 0, ['c', 'c'], false, false, false⟩], true)) :=
  ⟨rfl,
   buildOne_length [['c', 'c', ' ']] 1 0 0 0 0 0 5 true false 0
     (some ([⟨0, 0, ['c', 'c'], false, false, false⟩], true)) rfl (by decide)
     (by decide)
     (by intro ws isTerm h; cases h; decide)
     (by decide)⟩

/-- C3 (counterexample): with `just = 1`, `last = 0`, `suffix = 0`, the
paragraph `aa bb cc` at width 5 produces the terminal line `cc` of length
2, while the claim ("`prefix + L + suffix` in every case other than
`just = 0 ∧ suffix = 0`") predicts 0 + 5 + 0 = 5. -/
theorem reformat_just_terminal_len_cex :
    reformat [['a', 'a', ' ', 'b', 'b', ' ', 'c', 'c']] 0 0 0 0 0 5
        false false false true false false false []
      = .ok [['a', 'a', ' ', 'b', 'b'], ['c', 'c']] ∧
    (['c', 'c'] : List Char).length = 2 ∧ ¬ ((2 : Nat) = 0 + 5 + 0) := by
  refine ⟨rfl, rfl, by decide⟩

/-! # The chosen-break invariant (claim C1)

`GoodCell` records what a nonnegative optimizer score guarantees about the
stored break: the line it starts fits in the width bound `B`, and the word
the break points at has itself a nonnegative score. -/

/-- What a cell of the word at the head of `(w, c) :: rest` guarantees
when its score is nonnegative. -/
def GoodCell (B : Int) (w : Word) (rest : List (Word × Cell)) (c : Cell) : Prop :=
  c.score ≥ 0 →
    match c.nl with
    | none => (seglen (w :: rest.map Prod.fst) : Int) ≤ B
    | some t => (seglen (w :: (rest.take t).map Prod.fst) : Int) ≤ B ∧
        ∃ w2 c2 rs2, rest.drop t = (w2, c2) :: rs2 ∧ c2.score ≥ 0

/-- `GoodCell` holding at every position of a zipped word/cell list. -/
def GoodCells (B : Int) : List (Word × Cell) → Prop
  | [] => True
  | (w, c) :: rest => GoodCell B w rest c ∧ GoodCells B rest

theorem goodCells_drop (B : Int) :
    ∀ (l : List (Word × Cell)) (t : Nat), GoodCells B l → GoodCells B (l.drop t)
  | l, 0, h => h
  | [], _ + 1, h => h
  | _ :: rest, t + 1, h => goodCells_drop B rest t h.2

/-- Auxiliary facts about `take`/`drop` at a position exposed by `drop`. -/
theorem take_drop_succ {α : Type} :
    ∀ (l : List α) (t : Nat) (x : α) (xs : List α), l.drop t = x :: xs →
      l.take (t + 1) = l.take t ++ [x] ∧ l.drop (t + 1) = xs
  | [], t, x, xs, h => by simp at h
  | a :: l, 0, x, xs, h => by
      simp only [List.drop_zero] at h
      cases h
      simp
  | a :: l, t + 1, x, xs, h => by
      have ih := take_drop_succ l t x xs (by simpa using h)
      simp only [List.take_succ_cons, List.drop_succ_cons, List.cons_append]
      exact ⟨by rw [← List.take_succ_cons, List.take_succ_cons, ih.1], ih.2⟩

/-- Appending one more word to a line adds its `wordGap`. -/
theorem seglen_snoc (w : Word) (l : List Word) (x : Word) :
    seglen (w :: (l ++ [x])) = seglen (w :: l) + wordGap x := by
  simp [seglen, List.map_append, List.sum_append]
  omega

/-- A `drop` that misses the whole list forces `take` to be the whole
list. -/
theorem take_of_drop_nil {α : Type} (l : List α) (t : Nat) (h : l.drop t = []) :
    l.take t = l := by
  have hl2 := congrArg List.length h
  simp only [List.length_drop, List.length_nil] at hl2
  exact List.take_of_length_le (by omega)

/-- The candidate loop of `normalbreaks` preserves `GoodCell` (every
cell it writes records a line that fits in `target` and a next word of
nonnegative score). -/
theorem nbFind_good (target shortest : Int) (lastB : Bool) (w : Word)
    (rest0 : List (Word × Cell)) :
    ∀ (pairs : List (Word × Cell)) (t : Nat) (ll : Nat) (best : Cell),
      pairs = rest0.drop t →
      ll = seglen (w :: (rest0.take t).map Prod.fst) →
      GoodCell target w rest0 best →
      GoodCell target w rest0 (nbFind target shortest lastB best ll t pairs)
  | [], t, ll, best, hp, hll, hbest => by
      have htake : rest0.take t = rest0 := take_of_drop_nil rest0 t hp.symm
      rw [htake] at hll
      unfold nbFind
      by_cases hle : (ll : Int) ≤ target
      · rw [if_pos hle]
        by_cases h2 : (ll : Int) ≥ (if lastB then shortest else 0)
        · rw [if_pos h2]
          by_cases h3 : best.score < 0 ∨
              (if lastB then target - ll else 0) * (if lastB then target - ll else 0)
                ≤ best.score
          · rw [if_pos h3]
            intro _
            show (seglen (w :: rest0.map Prod.fst) : Int) ≤ target
            rw [← hll]
            exact hle
          · rw [if_neg h3]
            exact hbest
        · rw [if_neg h2]
          exact hbest
      · rw [if_neg hle]
        exact hbest
  | (w2, c2) :: rs, t, ll, best, hp, hll, hbest => by
      obtain ⟨htake, hdrop⟩ := take_drop_succ rest0 t (w2, c2) rs hp.symm
      unfold nbFind
      by_cases hle : (ll : Int) ≤ target
      · rw [if_pos hle]
        have hll2 : ll + wordGap w2 = seglen (w :: (rest0.take (t + 1)).map Prod.fst) := by
          rw [htake]
          simp only [List.map_append, List.map_cons, List.map_nil]
          rw [seglen_snoc]
          omega
        refine nbFind_good target shortest lastB w rest0 rs (t + 1) (ll + wordGap w2) _
          hdrop.symm hll2 ?_
        by_cases hcond : (ll : Int) ≥ shortest ∧ c2.score ≥ 0
        · rw [if_pos hcond]
          by_cases h3 : best.score < 0 ∨
              c2.score + (target - ll) * (target - ll) ≤ best.score
          · rw [if_pos h3]
            intro _
            refine ⟨?_, w2, c2, rs, hp.symm, hcond.2⟩
            rw [← hll]
            exact hle
          · rw [if_neg h3]
            exact hbest
        · rw [if_neg hcond]
          exact hbest
      · rw [if_neg hle]
        exact hbest

/-- Every cell `normalbreaks` computes is good for its target. -/
theorem nbCells_good (target shortest : Int) (lastB : Bool) :
    ∀ ws : List Word, GoodCells target (ws.zip (nbCells target shortest lastB ws))
  | [] => trivial
  | w :: rest => by
      have ih := nbCells_good target shortest lastB rest
      simp only [nbCells, List.zip_cons_cons, GoodCells]
      refine ⟨?_, ih⟩
      refine nbFind_good target shortest lastB w
        (rest.zip (nbCells target shortest lastB rest)) _ 0 w.wlen ⟨-1, none⟩ rfl
        (by simp [seglen]) ?_
      intro h
      exact absurd h (by decide)

/-- The candidate loop of pass 2 of `justbreaks` preserves `GoodCell`
with bound `L` (selected candidates have `extra ≥ 0`). -/
theorem jb2Find_good (L maxgap : Int) (lastB : Bool) (w : Word)
    (rest0 : List (Word × Cell)) :
    ∀ (pairs : List (Word × Cell)) (t numgaps : Nat) (extra : Int) (best : Cell),
      pairs = rest0.drop t →
      extra = L - (seglen (w :: (rest0.take t).map Prod.fst) : Int) →
      GoodCell L w rest0 best →
      GoodCell L w rest0 (jb2Find L maxgap lastB best extra numgaps t pairs)
  | [], t, numgaps, extra, best, hp, hex, hbest => by
      have htake : rest0.take t = rest0 := take_of_drop_nil rest0 t hp.symm
      rw [htake] at hex
      unfold jb2Find
      by_cases hge : extra ≥ 0
      · rw [if_pos hge]
        by_cases hlast : ¬ lastB = true
        · rw [if_pos hlast]
          intro _
          show (seglen (w :: rest0.map Prod.fst) : Int) ≤ L
          omega
        · rw [if_neg hlast]
          by_cases h2 : ceilGap L extra numgaps ≤ maxgap
          · rw [if_pos h2]
            by_cases h3 : best.score < 0 ∨
                ((pass2cost extra.toNat numgaps : Nat) : Int) ≤ best.score
            · rw [if_pos h3]
              intro _
              show (seglen (w :: rest0.map Prod.fst) : Int) ≤ L
              omega
            · rw [if_neg h3]
              exact hbest
          · rw [if_neg h2]
            exact hbest
      · rw [if_neg hge]
        exact hbest
  | (w2, c2) :: rs, t, numgaps, extra, best, hp, hex, hbest => by
      obtain ⟨htake, hdrop⟩ := take_drop_succ rest0 t (w2, c2) rs hp.symm
      unfold jb2Find
      by_cases hge : extra ≥ 0
      · rw [if_pos hge]
        have hex2 : extra - wordGap w2
            = L - (seglen (w :: (rest0.take (t + 1)).map Prod.fst) : Int) := by
          rw [htake]
          simp only [List.map_append, List.map_cons, List.map_nil]
          rw [seglen_snoc]
          push_cast
          omega
        refine jb2Find_good L maxgap lastB w rest0 rs (t + 1) (numgaps + 1)
          (extra - wordGap w2) _ hdrop.symm hex2 ?_
        by_cases hcond : ceilGap L extra numgaps ≤ maxgap ∧ c2.score ≥ 0
        · rw [if_pos hcond]
          by_cases h3 : best.score < 0 ∨
              c2.score + ((pass2cost extra.toNat numgaps : Nat) : Int) ≤ best.score
          · rw [if_pos h3]
            intro _
            exact ⟨by omega, w2, c2, rs, hp.symm, hcond.2⟩
          · rw [if_neg h3]
            exact hbest
        · rw [if_neg hcond]
          exact hbest
      · rw [if_neg hge]
        exact hbest

/-- Every cell pass 2 of `justbreaks` computes is good for `L`. -/
theorem jb2Cells_good (L maxgap : Int) (lastB : Bool) :
    ∀ ws : List Word, GoodCells L (ws.zip (jb2Cells L maxgap lastB ws))
  | [] => trivial
  | w :: rest => by
      have ih := jb2Cells_good L maxgap lastB rest
      simp only [jb2Cells, List.zip_cons_cons, GoodCells]
      refine ⟨?_, ih⟩
      refine jb2Find_good L maxgap lastB w
        (rest.zip (jb2Cells L maxgap lastB rest)) _ 0 0 ((L : Int) - w.wlen) ⟨-1, none⟩
        rfl (by simp [seglen]) ?_
      intro h
      exact absurd h (by decide)

/-- Walking the `nextline` chain over good cells whose head score is
nonnegative only yields lines that fit the bound. -/
theorem chainLinesF_fits (B : Int) :
    ∀ (fuel : Nat) (l : List (Word × Cell)), l.length ≤ fuel → GoodCells B l →
      (∀ w c rest, l = (w, c) :: rest → c.score ≥ 0) →
      ∀ p ∈ chainLinesF fuel l, (seglen p.1 : Int) ≤ B := by
  intro fuel
  induction fuel with
  | zero =>
      intro l _ _ _ p hp
      cases l with
      | nil => simp [chainLinesF] at hp
      | cons a l => simp [chainLinesF] at hp
  | succ fuel ih =>
      intro l hlen hgood hhead p hp
      cases l with
      | nil => simp [chainLinesF] at hp
      | cons a rest =>
          obtain ⟨w, c⟩ := a
          have hsc : c.score ≥ 0 := hhead w c rest rfl
          have hc := hgood.1 hsc
          cases hnl : c.nl with
          | none =>
              rw [hnl] at hc
              simp only [chainLinesF, hnl, List.mem_singleton] at hp
              subst hp
              exact hc
          | some t =>
              rw [hnl] at hc
              obtain ⟨hfit, w2, c2, rs2, hdrop, hsc2⟩ := hc
              simp only [chainLinesF, hnl, List.mem_cons] at hp
              rcases hp with hp | hp
              · subst hp
                exact hfit
              · refine ih (rest.drop t) ?_ (goodCells_drop B rest t hgood.2) ?_ p hp
                · simp only [List.length_drop]
                  simp only [List.length_cons] at hlen
                  omega
                · intro w3 c3 rest3 h3
                  rw [hdrop] at h3
                  cases h3
                  exact hsc2

/-- The best-fit search never raises the target above its start values. -/
theorem fitSearch_le (lastB : Bool) (ws : List Word) :
    ∀ (fuel : Nat) (tryL target score B : Int), tryL ≤ B → target ≤ B →
      fitSearch lastB ws fuel tryL target score ≤ B
  | 0, tryL, target, score, B, h1, h2 => h2
  | fuel + 1, tryL, target, score, B, h1, h2 => by
      unfold fitSearch
      split
      · exact h2
      · split
        · exact fitSearch_le lastB ws fuel (tryL - 1) tryL _ B (by omega) h1
        · exact fitSearch_le lastB ws fuel (tryL - 1) target score B (by omega) h2

/-- The target `normalbreaks` uses is at most `L`. -/
theorem nbTarget_le (L : Int) (fit lastB : Bool) (ws : List Word) :
    nbTarget L fit lastB ws ≤ L := by
  unfold nbTarget
  split
  · exact fitSearch_le lastB ws (L.toNat + 2) L L (L + 1) L (le_refl L) (le_refl L)
  · exact le_refl L

/-- The head cell of a zip is the `headD` of the cell list. -/
theorem zip_head_cell (ws : List Word) (cs : List Cell) (w : Word) (c : Cell)
    (rest : List (Word × Cell)) (h : ws.zip cs = (w, c) :: rest) :
    cs.headD ⟨-1, none⟩ = c := by
  cases ws with
  | nil => simp [List.zip] at h
  | cons w0 ws2 =>
      cases cs with
      | nil => simp [List.zip] at h
      | cons c0 cs2 =>
          simp only [List.zip_cons_cons, List.cons.injEq] at h
          obtain ⟨⟨_, hc⟩, _⟩ := h
          rfl

/-- The lines chosen by a successful `normalbreaks` all fit in `L`. -/
theorem normalbreaks_chain_fits (L : Int) (fit lastB : Bool) (ws : List Word)
    (cells : List Cell) (h : normalbreaks L fit lastB ws = .ok cells) :
    ∀ p ∈ chainLines (ws.zip cells), (seglen p.1 : Int) ≤ L := by
  unfold normalbreaks at h
  by_cases hws : ws = []
  · rw [if_pos hws] at h
    cases h
    subst hws
    intro p hp
    simp [chainLines, chainLinesF] at hp
  · rw [if_neg hws] at h
    by_cases h1 : simplebreaks (nbTarget L fit lastB ws) lastB ws < 0
    · rw [if_pos h1] at h
      cases h
    · rw [if_neg h1] at h
      by_cases h2 : ((nbCellsAt L fit lastB ws).headD ⟨-1, none⟩).score < 0
      · rw [if_pos h2] at h
        cases h
      · rw [if_neg h2] at h
        cases h
        intro p hp
        have hgood : GoodCells (nbTarget L fit lastB ws)
            (ws.zip (nbCellsAt L fit lastB ws)) := by
          unfold nbCellsAt
          exact nbCells_good _ _ _ ws
        have hhead : ∀ w c rest, ws.zip (nbCellsAt L fit lastB ws) = (w, c) :: rest →
            c.score ≥ 0 := by
          intro w c rest hz
          rw [← zip_head_cell ws (nbCellsAt L fit lastB ws) w c rest hz]
          omega
        have hfit := chainLinesF_fits (nbTarget L fit lastB ws)
          (ws.zip (nbCellsAt L fit lastB ws)).length (ws.zip (nbCellsAt L fit lastB ws))
          (le_refl _) hgood hhead p hp
        have := nbTarget_le L fit lastB ws
        omega

/-- The lines chosen by a successful `justbreaks` all fit in `L`. -/
theorem justbreaks_chain_fits (L : Int) (lastB : Bool) (ws : List Word)
    (cells : List Cell) (h : justbreaks L lastB ws = .ok cells) :
    ∀ p ∈ chainLines (ws.zip cells), (seglen p.1 : Int) ≤ L := by
  unfold justbreaks at h
  by_cases hws : ws = []
  · rw [if_pos hws] at h
    cases h
    subst hws
    intro p hp
    simp [chainLines, chainLinesF] at hp
  · rw [if_neg hws] at h
    by_cases h1 : jbMaxgap L lastB ws ≥ L
    · rw [if_pos h1] at h
      cases h
    · rw [if_neg h1] at h
      by_cases h2 : ((jb2CellsAt L lastB ws).headD ⟨-1, none⟩).score < 0
      · rw [if_pos h2] at h
        cases h
      · rw [if_neg h2] at h
        cases h
        intro p hp
        have hgood : GoodCells L (ws.zip (jb2CellsAt L lastB ws)) := by
          unfold jb2CellsAt
          exact jb2Cells_good _ _ _ ws
        have hhead : ∀ w c rest, ws.zip (jb2CellsAt L lastB ws) = (w, c) :: rest →
            c.score ≥ 0 := by
          intro w c rest hz
          rw [← zip_head_cell ws (jb2CellsAt L lastB ws) w c rest hz]
          omega
        exact chainLinesF_fits L (ws.zip (jb2CellsAt L lastB ws)).length
          (ws.zip (jb2CellsAt L lastB ws)) (le_refl _) hgood hhead p hp

/-- `foldl max` stays below a common bound. -/
theorem foldl_max_le_of (B : Nat) :
    ∀ (l : List Nat) (a : Nat), a ≤ B → (∀ x ∈ l, x ≤ B) → l.foldl max a ≤ B
  | [], a, ha, _ => ha
  | x :: l, a, ha, h =>
      foldl_max_le_of B l (max a x)
        (by have := h x (by simp); omega)
        (fun y hy => h y (by simp [hy]))

/-- `foldl max` dominates its start. -/
theorem foldl_max_ge_init : ∀ (l : List Nat) (a : Nat), a ≤ l.foldl max a
  | [], a => le_refl a
  | x :: l, a => le_trans (le_max_left a x) (foldl_max_ge_init l (max a x))

/-- `foldl max` dominates every member. -/
theorem le_foldl_max : ∀ (l : List Nat) (a x : Nat), x ∈ l → x ≤ l.foldl max a
  | [], a, x, h => absurd h (by simp)
  | y :: l, a, x, h => by
      rcases List.mem_cons.mp h with h | h
      · subst h
        exact le_trans (le_max_right a x) (foldl_max_ge_init l (max a x))
      · exact le_foldl_max l (max a y) x h

/-- A hit of `getElem?` is a member. -/
theorem mem_of_getElem?_eq {α : Type} :
    ∀ (l : List α) (i : Nat) (a : α), l[i]? = some a → a ∈ l
  | a0 :: l, 0, a, h => by
      simp only [List.getElem?_cons_zero, Option.some.injEq] at h
      subst h
      simp
  | a0 :: l, i + 1, a, h => by
      simp only [List.getElem?_cons_succ] at h
      exact List.mem_cons_of_mem _ (mem_of_getElem?_eq l i a h)
  | [], i, a, h => by simp at h

/-- The allocated output-line length never exceeds `width`. -/
theorem lineOutLen_le (pfxLen sfxLen width : Nat) (L2 : Int) (just lastB : Bool)
    (info : Option (List Word × Bool))
    (hw : pfxLen + sfxLen < width)
    (hle : L2 ≤ (width : Int) - pfxLen - sfxLen)
    (hinfo : ∀ ws isTerm, info = some (ws, isTerm) → (seglen ws : Int) ≤ L2) :
    lineOutLen pfxLen sfxLen L2 just lastB info ≤ (width : Int) := by
  rcases info with _ | ⟨ws, isTerm⟩
  · unfold lineOutLen
    split
    · omega
    · push_cast
      omega
  · have hws := hinfo ws isTerm rfl
    unfold lineOutLen
    split
    · omega
    · push_cast
      omega

/-- C1: for every successful `reformat` call under the driver-enforced
precondition `width > prefix + suffix`, every output line has byte length
at most `width`. -/
theorem reformat_width_bound (lines : List (List Char))
    (afp fs hang pfxLen sfxLen width : Nat)
    (cap fit guess just lastB report touch : Bool) (term : List Char)
    (out : List (List Char))
    (hw : pfxLen + sfxLen < width)
    (hok : reformat lines afp fs hang pfxLen sfxLen width cap fit guess just lastB report
        touch term = .ok out) :
    ∀ l ∈ out, l.length ≤ width := by
  simp only [reformat] at hok
  split at hok
  · cases hok
  · rename_i hlen0
    split at hok
    case h_1 => cases hok
    case h_2 heqShort =>
      have hplen : ∀ l ∈ lines, pfxLen + sfxLen ≤ l.length :=
        (lineTooShortIdx_none pfxLen sfxLen lines 1).mp heqShort
      split at hok
      case h_1 => cases hok
      case h_2 ws heqWP =>
        split at hok
        case h_1 => cases hok
        case h_2 cells heqBr =>
          cases hok
          have hfits : ∀ p ∈ chainLines (ws.zip cells),
              (seglen p.1 : Int) ≤ (width : Int) - pfxLen - sfxLen := by
            unfold reformatBreaks at heqBr
            split at heqBr
            · exact justbreaks_chain_fits _ _ _ _ heqBr
            · exact normalbreaks_chain_fits _ _ _ _ _ heqBr
          have hL2 : reformatL2 ((width : Int) - pfxLen - sfxLen) just touch
                (chainLines (ws.zip cells)) ≤ (width : Int) - pfxLen - sfxLen ∧
              0 ≤ reformatL2 ((width : Int) - pfxLen - sfxLen) just touch
                (chainLines (ws.zip cells)) ∧
              ∀ p ∈ chainLines (ws.zip cells),
                (seglen p.1 : Int) ≤ reformatL2 ((width : Int) - pfxLen - sfxLen) just touch
                  (chainLines (ws.zip cells)) := by
            unfold reformatL2
            split
            · refine ⟨?_, by positivity, ?_⟩
              · unfold maxLinelen
                have hb : ∀ x ∈ (chainLines (ws.zip cells)).map (fun p => seglen p.1),
                    x ≤ ((width : Int) - pfxLen - sfxLen).toNat := by
                  intro x hx
                  obtain ⟨p, hp, hpx⟩ := List.mem_map.mp hx
                  have := hfits p hp
                  omega
                have := foldl_max_le_of ((width : Int) - pfxLen - sfxLen).toNat
                  ((chainLines (ws.zip cells)).map (fun p => seglen p.1)) 0 (by omega) hb
                omega
              · intro p hp
                have : seglen p.1 ≤ maxLinelen (chainLines (ws.zip cells)) :=
                  le_foldl_max _ 0 _ (List.mem_map_of_mem _ hp)
                exact_mod_cast this
            · exact ⟨le_refl _, by omega, hfits⟩
          intro l hl
          simp only [assemble, List.mem_map] at hl
          obtain ⟨i, hi, hbuild⟩ := hl
          have hinfo : ∀ ws2 isTerm, (chainLines (ws.zip cells))[i]? = some (ws2, isTerm) →
              (seglen ws2 : Int) ≤ reformatL2 ((width : Int) - pfxLen - sfxLen) just touch
                (chainLines (ws.zip cells)) := by
            intro ws2 isTerm hsome
            exact hL2.2.2 _ (mem_of_getElem?_eq _ i _ hsome)
          have hblen := buildOne_length lines lines.length hang afp fs pfxLen sfxLen
            (reformatL2 ((width : Int) - pfxLen - sfxLen) just touch
              (chainLines (ws.zip cells)))
            just lastB i ((chainLines (ws.zip cells))[i]?) rfl (by omega) hplen hinfo
            hL2.2.1
          rw [hbuild] at hblen
          have hbound := lineOutLen_le pfxLen sfxLen width
            (reformatL2 ((width : Int) - pfxLen - sfxLen) just touch
              (chainLines (ws.zip cells)))
            just lastB ((chainLines (ws.zip cells))[i]?) hw hL2.1 hinfo
          omega

/-- C1 (witness): a concrete successful call - the two-line paragraph of
the C3 counterexample at `width = 5` - yields lines of length at most 5. -/
theorem reformat_width_bound_witness :
    0 + 0 < 5 ∧
      ∀ l ∈ [['a', 'a', ' ', 'b', 'b'], ['c', 'c']], List.length l ≤ 5 :=
  ⟨by decide,
   reformat_width_bound [['a', 'a', ' ', 'b', 'b', ' ', 'c', 'c']] 0 0 0 0 0 5
     false false false true false false false [] [['a', 'a', ' ', 'b', 'b'], ['c', 'c']]
     (by decide) (by rfl)⟩

/-! ## `simplebreaks` against the spec's optimization statement -/

/-- Spec-side definition for the `simplebreaks` claim: a breaking of the
word list `ws` into lines, i.e. a list of consecutive nonempty segments
whose concatenation is `ws`, every segment fitting in `L` (counting one
space between consecutive words plus one extra per shifted word, as
`seglen` does). -/
def Feasible (L : Int) (ws : List Word) (segs : List (List Word)) : Prop :=
  segs.flatten = ws ∧ ∀ seg ∈ segs, seg ≠ [] ∧ (seglen seg : Int) ≤ L

/-- Spec-side definition for the `simplebreaks` claim: the minimum counted
line length of a breaking.  Every line counts except the final one, which
counts only when `last` is set; an empty set of counted lines yields `L`
(the cap: every counted line of a feasible breaking is at most `L`). -/
def breakVal (L : Int) (last : Bool) : List (List Word) → Int
  | [] => L
  | [s] => if last then (seglen s : Int) else L
  | s :: t :: r => min (seglen s : Int) (breakVal L last (t :: r))

/-- A word's length is at most its `wordGap`. -/
theorem wlen_le_wordGap (w : Word) : w.wlen ≤ wordGap w := by
  unfold wordGap
  omega

/-- `seglen` over an append with a nonempty left part. -/
theorem seglen_append_of_ne (a b : List Word) (ha : a ≠ []) :
    seglen (a ++ b) = seglen a + (b.map wordGap).sum := by
  cases a with
  | nil => exact absurd rfl ha
  | cons x a2 =>
      simp only [List.cons_append, seglen, List.map_append, List.sum_append]
      omega

/-- A line only gets longer when words are prepended. -/
theorem seglen_le_append_right (a b : List Word) : seglen b ≤ seglen (a ++ b) := by
  cases a with
  | nil => simp
  | cons x a2 =>
      cases b with
      | nil =>
          simp only [seglen]
          omega
      | cons y b2 =>
          have hg := wlen_le_wordGap y
          simp only [List.cons_append, seglen, List.map_append, List.sum_append,
            List.map_cons, List.sum_cons]
          omega

/-- Every word of a line is at most as long as the line. -/
theorem wlen_le_seglen (w0 : Word) (ws : List Word) (hmem : w0 ∈ ws) :
    w0.wlen ≤ seglen ws := by
  obtain ⟨s, t, rfl⟩ := List.append_of_mem hmem
  have h1 : w0.wlen ≤ seglen (w0 :: t) := by
    simp only [seglen]
    omega
  exact le_trans h1 (seglen_le_append_right s _)

/-- `simplebreaks` on a nonempty list: the two phases of the C loops. -/
theorem simplebreaks_cons (L : Int) (last : Bool) (w : Word) (rest : List Word) :
    simplebreaks L last (w :: rest) =
      if (seglen (w :: rest) : Int) ≤ L then
        (if last then (seglen (w :: rest) : Int) else L)
      else sbFind L (-1) w.wlen (rest.zip (sbCells L last rest)) := rfl

/-- Peeling one cell off `sbCells`: the head cell is the function value. -/
theorem sbCells_cons (L : Int) (last : Bool) (w : Word) (rest : List Word) :
    sbCells L last (w :: rest) =
      simplebreaks L last (w :: rest) :: sbCells L last rest := rfl

/-- The candidate scan of `simplebreaks` never lowers its running best. -/
theorem sbFind_ge_best (L : Int) :
    ∀ (pairs : List (Word × Int)) (best : Int) (ll : Nat),
      best ≤ sbFind L best ll pairs
  | [], best, ll => le_refl best
  | (w2, s2) :: rs, best, ll => by
      simp only [sbFind]
      by_cases hl : (ll : Int) ≤ L
      · rw [if_pos hl]
        by_cases hc : min s2 (ll : Int) ≥ best
        · rw [if_pos hc]
          exact le_trans hc (sbFind_ge_best L rs _ _)
        · rw [if_neg hc]
          exact sbFind_ge_best L rs best _
      · rw [if_neg hl]

/-- A feasible breaking's value never exceeds `L`. -/
theorem breakVal_le (L : Int) (last : Bool) :
    ∀ segs : List (List Word), (∀ seg ∈ segs, (seglen seg : Int) ≤ L) →
      breakVal L last segs ≤ L
  | [], _ => le_refl L
  | [s], h => by
      simp only [breakVal]
      by_cases hl : last = true
      · rw [if_pos hl]
        exact h s (by simp)
      · rw [if_neg hl]
  | s :: t :: r, h => by
      simp only [breakVal]
      have := breakVal_le L last (t :: r) (fun seg hs => h seg (List.mem_cons_of_mem _ hs))
      omega

/-- With `last` set, a breaking's value never exceeds the total length. -/
theorem breakVal_le_flatten (L : Int) :
    ∀ segs : List (List Word), segs ≠ [] → (∀ seg ∈ segs, seg ≠ []) →
      breakVal L true segs ≤ (seglen segs.flatten : Int)
  | [], h, _ => absurd rfl h
  | [s], _, _ => by
      simp [breakVal]
  | s :: t :: r, _, h => by
      simp only [breakVal]
      have h2 := breakVal_le_flatten L (t :: r) (by simp)
        (fun seg hs => h seg (List.mem_cons_of_mem _ hs))
      have h3 : seglen ((t :: r).flatten) ≤ seglen (s ++ (t :: r).flatten) :=
        seglen_le_append_right s _
      have h4 : (s :: t :: r).flatten = s ++ (t :: r).flatten := rfl
      rw [h4]
      omega

/-- Every step of the candidate scan dominates every feasible breaking
that starts with the line built so far plus a prefix of the remaining
words, given that the scores of the remaining suffixes already dominate
their own feasible breakings. -/
theorem sbFind_ub (L : Int) (last : Bool) :
    ∀ (t rem₂ line : List Word) (best : Int) (segs2 : List (List Word)),
      line ≠ [] → rem₂ ≠ [] →
      (∀ rem1 rem2 : List Word, t ++ rem₂ = rem1 ++ rem2 → rem2 ≠ [] →
        ∀ sg : List (List Word), Feasible L rem2 sg →
          breakVal L last sg ≤ simplebreaks L last rem2) →
      Feasible L rem₂ segs2 →
      (seglen (line ++ t) : Int) ≤ L →
      min (seglen (line ++ t) : Int) (breakVal L last segs2) ≤
        sbFind L best (seglen line) ((t ++ rem₂).zip (sbCells L last (t ++ rem₂)))
  | [], rem₂, line, best, segs2, hline, hne2, hIH, hfeas, hfit => by
      cases rem₂ with
      | nil => exact absurd rfl hne2
      | cons w2 rest2 =>
          simp only [List.nil_append, List.append_nil] at hfit ⊢
          rw [sbCells_cons, List.zip_cons_cons]
          simp only [sbFind]
          rw [if_pos hfit]
          have hS := hIH [] (w2 :: rest2) rfl (by simp) segs2 hfeas
          have hmono := sbFind_ge_best L (rest2.zip (sbCells L last rest2))
            (if min (simplebreaks L last (w2 :: rest2)) ((seglen line : Nat) : Int) ≥ best then
              min (simplebreaks L last (w2 :: rest2)) ((seglen line : Nat) : Int) else best)
            (seglen line + wordGap w2)
          by_cases hc : min (simplebreaks L last (w2 :: rest2)) ((seglen line : Nat) : Int) ≥ best
          · rw [if_pos hc] at hmono ⊢
            omega
          · rw [if_neg hc] at hmono ⊢
            omega
  | u :: t2, rem₂, line, best, segs2, hline, hne2, hIH, hfeas, hfit => by
      rw [List.cons_append, sbCells_cons, List.zip_cons_cons]
      simp only [sbFind]
      have hse := seglen_append_of_ne line (u :: t2) hline
      have hmon : ((seglen line : Nat) : Int) ≤ ((seglen (line ++ (u :: t2)) : Nat) : Int) := by
        omega
      rw [if_pos (le_trans hmon hfit)]
      have hstep : seglen line + wordGap u = seglen (line ++ [u]) := by
        have := seglen_append_of_ne line [u] hline
        simp only [List.map_cons, List.map_nil, List.sum_cons, List.sum_nil] at this
        omega
      rw [hstep]
      have hIH2 : ∀ rem1 rem2 : List Word, t2 ++ rem₂ = rem1 ++ rem2 → rem2 ≠ [] →
          ∀ sg : List (List Word), Feasible L rem2 sg →
            breakVal L last sg ≤ simplebreaks L last rem2 := by
        intro rem1 rem2 he hn sg hf
        exact hIH (u :: rem1) rem2 (by simp only [List.cons_append]; rw [he]) hn sg hf
      have hassoc : line ++ (u :: t2) = (line ++ [u]) ++ t2 := by simp
      rw [hassoc]
      exact sbFind_ub L last t2 rem₂ (line ++ [u]) _ segs2 (by simp) hne2 hIH2 hfeas
        (by rw [← hassoc]; exact hfit)

/-- The candidate scan either keeps its running best, or returns the value
of some accepted candidate: a split of the remaining words at which the
first line fits. -/
theorem sbFind_ex (L : Int) (last : Bool) :
    ∀ (rem line : List Word) (best : Int), line ≠ [] →
      sbFind L best (seglen line) (rem.zip (sbCells L last rem)) = best ∨
      ∃ t rem₂ : List Word, rem = t ++ rem₂ ∧ rem₂ ≠ [] ∧
        (seglen (line ++ t) : Int) ≤ L ∧
        sbFind L best (seglen line) (rem.zip (sbCells L last rem)) =
          min (simplebreaks L last rem₂) (seglen (line ++ t) : Int)
  | [], line, best, hline => Or.inl rfl
  | w2 :: rest2, line, best, hline => by
      rw [sbCells_cons, List.zip_cons_cons]
      simp only [sbFind]
      by_cases hl : ((seglen line : Nat) : Int) ≤ L
      · rw [if_pos hl]
        have hstep : seglen line + wordGap w2 = seglen (line ++ [w2]) := by
          have := seglen_append_of_ne line [w2] hline
          simp only [List.map_cons, List.map_nil, List.sum_cons, List.sum_nil] at this
          omega
        rw [hstep]
        rcases sbFind_ex L last rest2 (line ++ [w2])
            (if min (simplebreaks L last (w2 :: rest2)) ((seglen line : Nat) : Int) ≥ best then
              min (simplebreaks L last (w2 :: rest2)) ((seglen line : Nat) : Int) else best)
            (by simp) with h | ⟨t2, rem₂, hsp, hn, hf, he⟩
        · by_cases hc : min (simplebreaks L last (w2 :: rest2)) ((seglen line : Nat) : Int) ≥ best
          · right
            refine ⟨[], w2 :: rest2, by simp, by simp, ?_, ?_⟩
            · simpa using hl
            · rw [h, if_pos hc]
              simp
          · left
            rw [h, if_neg hc]
        · right
          refine ⟨w2 :: t2, rem₂, by rw [hsp, List.cons_append], hn, ?_, ?_⟩
          · rw [show line ++ (w2 :: t2) = (line ++ [w2]) ++ t2 from by simp]
            exact hf
          · rw [he, show (line ++ [w2]) ++ t2 = line ++ (w2 :: t2) from by simp]
      · rw [if_neg hl]
        exact Or.inl rfl

/-- Correctness of `simplebreaks` on every nonempty list of at most `n`
words: the result is `-1` when a word exceeds `L`, and otherwise it is
nonnegative, dominates every feasible breaking's value, and is attained by
one. -/
theorem sbSpecAux (L : Int) (last : Bool) :
    ∀ (n : Nat) (ws : List Word), ws.length ≤ n → ws ≠ [] →
      ((∃ w ∈ ws, L < (w.wlen : Int)) → simplebreaks L last ws = -1) ∧
      ((∀ w ∈ ws, (w.wlen : Int) ≤ L) →
        0 ≤ simplebreaks L last ws ∧
        (∀ segs, Feasible L ws segs → breakVal L last segs ≤ simplebreaks L last ws) ∧
        ∃ segs, Feasible L ws segs ∧ breakVal L last segs = simplebreaks L last ws) := by
  intro n
  induction n with
  | zero =>
      intro ws hlen hne
      cases ws with
      | nil => exact absurd rfl hne
      | cons w r => simp at hlen
  | succ n ih =>
      intro ws hlen hne
      cases ws with
      | nil => exact absurd rfl hne
      | cons w rest =>
      by_cases hA : (seglen (w :: rest) : Int) ≤ L
      · rw [simplebreaks_cons, if_pos hA]
        constructor
        · rintro ⟨w0, hmem, hlong⟩
          have h1 : w0.wlen ≤ seglen (w :: rest) := wlen_le_seglen w0 _ hmem
          have h2 : (w0.wlen : Int) ≤ (seglen (w :: rest) : Int) := by exact_mod_cast h1
          exact absurd hlong (by omega)
        · intro hno
          have hL0 : (0 : Int) ≤ L :=
            le_trans (by positivity) (hno w (by simp))
          refine ⟨?_, ?_, ⟨[w :: rest], ⟨by simp, ?_⟩, ?_⟩⟩
          · split
            · positivity
            · exact hL0
          · intro segs hf
            split
            · rename_i hlast
              subst hlast
              have hsne : segs ≠ [] := by
                intro h0
                rw [h0] at hf
                obtain ⟨hj, _⟩ := hf
                simp at hj
              have hub := breakVal_le_flatten L segs hsne (fun seg hs => (hf.2 seg hs).1)
              rw [hf.1] at hub
              exact hub
            · exact breakVal_le L last segs (fun seg hs => (hf.2 seg hs).2)
          · rintro seg hs
            rw [List.mem_singleton] at hs
            subst hs
            exact ⟨by simp, hA⟩
          · simp only [breakVal]
      · rw [simplebreaks_cons, if_neg hA]
        have hsl : seglen [w] = w.wlen := by
          simp [seglen]
        rw [← hsl]
        constructor
        · rintro ⟨w0, hmem, hlong⟩
          rcases sbFind_ex L last rest [w] (-1) (by simp) with h | ⟨t, rem₂, hsp, hn2, hfit2, heq⟩
          · exact h
          · rw [heq]
            have hx : w0 ∈ w :: (t ++ rem₂) := by
              rw [← hsp]
              exact hmem
            rcases List.mem_cons.mp hx with rfl | hx2
            · have h1 : w0.wlen ≤ seglen ([w0] ++ t) := wlen_le_seglen w0 _ (by simp)
              have h2 : (w0.wlen : Int) ≤ (seglen ([w0] ++ t) : Int) := by exact_mod_cast h1
              exact absurd hlong (by omega)
            · rcases List.mem_append.mp hx2 with hin | hin
              · have h1 : w0.wlen ≤ seglen ([w] ++ t) :=
                  wlen_le_seglen w0 _ (by simp [hin])
                have h2 : (w0.wlen : Int) ≤ (seglen ([w] ++ t) : Int) := by exact_mod_cast h1
                exact absurd hlong (by omega)
              · have hlen2 : rem₂.length ≤ n := by
                  have h3 := congrArg List.length hsp
                  simp only [List.length_append] at h3
                  simp only [List.length_cons] at hlen
                  omega
                have hm1 := (ih rem₂ hlen2 hn2).1 ⟨w0, hin, hlong⟩
                rw [hm1]
                omega
        · intro hno
          have hrne : rest ≠ [] := by
            intro h0
            rw [h0] at hA
            apply hA
            rw [show seglen (w :: ([] : List Word)) = w.wlen from by simp [seglen]]
            exact hno w (by simp)
          obtain ⟨w2, rest2, hr⟩ : ∃ w2 rest2, rest = w2 :: rest2 := by
            cases rest with
            | nil => exact absurd rfl hrne
            | cons a b => exact ⟨a, b, rfl⟩
          subst hr
          have hscore2 : 0 ≤ simplebreaks L last (w2 :: rest2) :=
            ((ih (w2 :: rest2) (by simp only [List.length_cons] at hlen ⊢; omega) (by simp)).2
              (fun w3 hw3 => hno w3 (List.mem_cons_of_mem _ hw3))).1
          have hpos : 0 ≤ sbFind L (-1) (seglen [w])
              ((w2 :: rest2).zip (sbCells L last (w2 :: rest2))) := by
            rw [sbCells_cons, List.zip_cons_cons]
            simp only [sbFind]
            have hwL : ((seglen [w] : Nat) : Int) ≤ L := by
              rw [hsl]
              exact hno w (by simp)
            rw [if_pos hwL]
            have hc : min (simplebreaks L last (w2 :: rest2)) ((seglen [w] : Nat) : Int) ≥
                (-1 : Int) := by
              have h0 : (0 : Int) ≤ ((seglen [w] : Nat) : Int) := by positivity
              omega
            rw [if_pos hc]
            have hmono := sbFind_ge_best L (rest2.zip (sbCells L last rest2))
              (min (simplebreaks L last (w2 :: rest2)) ((seglen [w] : Nat) : Int))
              (seglen [w] + wordGap w2)
            have h0 : (0 : Int) ≤ ((seglen [w] : Nat) : Int) := by positivity
            omega
          refine ⟨hpos, ?_, ?_⟩
          · intro segs hf
            obtain ⟨hjoin, hsegs⟩ := hf
            cases segs with
            | nil => simp at hjoin
            | cons seg1 segs2 =>
                have hseg1 := hsegs seg1 (by simp)
                obtain ⟨s0, s1, hs01⟩ : ∃ s0 s1, seg1 = s0 :: s1 := by
                  cases seg1 with
                  | nil => exact absurd rfl hseg1.1
                  | cons a b => exact ⟨a, b, rfl⟩
                subst hs01
                have hjoin2 : s0 :: (s1 ++ segs2.flatten) = w :: w2 :: rest2 := by
                  simpa using hjoin
                injection hjoin2 with hs0 hrest
                subst hs0
                cases segs2 with
                | nil =>
                    exfalso
                    have hall : s1 = w2 :: rest2 := by simpa using hrest
                    rw [hall] at hseg1
                    exact hA hseg1.2
                | cons sA ssB =>
                    have hjne : (sA :: ssB).flatten ≠ [] := by
                      have hsa := (hsegs sA (by simp)).1
                      cases sA with
                      | nil => exact absurd rfl hsa
                      | cons a b => simp
                    have hfeas2 : Feasible L ((sA :: ssB).flatten) (sA :: ssB) :=
                      ⟨rfl, fun seg hs => hsegs seg (List.mem_cons_of_mem _ hs)⟩
                    have hIHu : ∀ rem1 rem2 : List Word,
                        s1 ++ (sA :: ssB).flatten = rem1 ++ rem2 → rem2 ≠ [] →
                        ∀ sg, Feasible L rem2 sg →
                          breakVal L last sg ≤ simplebreaks L last rem2 := by
                      intro rem1 rem2 he hn sg hfg
                      have hlen2 : rem2.length ≤ n := by
                        have h1 := congrArg List.length he
                        have h2 := congrArg List.length hrest
                        simp only [List.length_append, List.length_cons] at h1 h2
                        simp only [List.length_cons] at hlen
                        omega
                      have hnl : ∀ w3 ∈ rem2, (w3.wlen : Int) ≤ L := by
                        intro w3 hw3
                        have hmm : w3 ∈ rem1 ++ rem2 := List.mem_append_right rem1 hw3
                        rw [← he, hrest] at hmm
                        exact hno w3 (List.mem_cons_of_mem _ hmm)
                      exact ((ih rem2 hlen2 hn).2 hnl).2.1 sg hfg
                    have hub := sbFind_ub L last s1 ((sA :: ssB).flatten) [s0] (-1) (sA :: ssB)
                      (by simp) hjne hIHu hfeas2 (by simpa using hseg1.2)
                    rw [hrest] at hub
                    simp only [List.singleton_append] at hub
                    simp only [breakVal]
                    exact hub
          · rcases sbFind_ex L last (w2 :: rest2) [w] (-1) (by simp)
                with h | ⟨t, rem₂, hsp, hn2, hfit2, heq⟩
            · exfalso
              rw [h] at hpos
              omega
            · have hlen2 : rem₂.length ≤ n := by
                have h3 := congrArg List.length hsp
                simp only [List.length_append, List.length_cons] at h3
                simp only [List.length_cons] at hlen
                omega
              have hnl : ∀ w3 ∈ rem₂, (w3.wlen : Int) ≤ L := by
                intro w3 hw3
                have hmm : w3 ∈ t ++ rem₂ := List.mem_append_right t hw3
                rw [← hsp] at hmm
                exact hno w3 (List.mem_cons_of_mem _ hmm)
              obtain ⟨segs2, hfeas2, hval⟩ := ((ih rem₂ hlen2 hn2).2 hnl).2.2
              have hsne2 : segs2 ≠ [] := by
                intro h0
                obtain ⟨hj, _⟩ := hfeas2
                rw [h0] at hj
                simp at hj
                exact hn2 hj
              obtain ⟨sA, ssB, hs2⟩ : ∃ a b, segs2 = a :: b := by
                cases segs2 with
                | nil => exact absurd rfl hsne2
                | cons a b => exact ⟨a, b, rfl⟩
              subst hs2
              refine ⟨(w :: t) :: sA :: ssB, ⟨?_, ?_⟩, ?_⟩
              · have h4 : ((w :: t) :: sA :: ssB).flatten = (w :: t) ++ (sA :: ssB).flatten :=
                  rfl
                rw [h4, hfeas2.1, List.cons_append, hsp]
              · rintro seg hs
                rcases List.mem_cons.mp hs with rfl | hs2
                · exact ⟨by simp, by simpa using hfit2⟩
                · exact hfeas2.2 seg hs2
              · simp only [breakVal]
                rw [hval, heq]
                simp only [List.singleton_append]
                exact min_comm _ _

/-- C5: for every nonempty word list, `simplebreaks` returns `-1` exactly
when some word is longer than `L`; otherwise its result dominates the
value (the minimum counted line length, the final line counting only when
`last` is set) of every breaking of the list into lines of length at most
`L`, and equals the value of one such breaking - it is the maximum over
all such breakings of the minimum counted line length. -/
theorem simplebreaks_spec (L : Int) (last : Bool) (ws : List Word) (hne : ws ≠ []) :
    (simplebreaks L last ws = -1 ↔ ∃ w ∈ ws, L < (w.wlen : Int)) ∧
    ((∀ w ∈ ws, (w.wlen : Int) ≤ L) →
      (∀ segs, Feasible L ws segs → breakVal L last segs ≤ simplebreaks L last ws) ∧
      ∃ segs, Feasible L ws segs ∧ breakVal L last segs = simplebreaks L last ws) := by
  obtain ⟨hA, hB⟩ := sbSpecAux L last ws.length ws (le_refl _) hne
  refine ⟨⟨?_, hA⟩, fun h => ⟨(hB h).2.1, (hB h).2.2⟩⟩
  intro h
  by_contra hno
  push_neg at hno
  have := (hB hno).1
  omega

/-- C5 (witness): the three-word paragraph `aa bb cc` at `L = 5` with the
final line counted. -/
theorem simplebreaks_spec_witness :
    ([⟨0, 0, ['a', 'a'], false, false, false⟩, ⟨0, 3, ['b', 'b'], false, false, false⟩,
        ⟨0, 6, ['c', 'c'], false, false, false⟩] : List Word) ≠ [] ∧
    ((simplebreaks 5 true [⟨0, 0, ['a', 'a'], false, false, false⟩,
          ⟨0, 3, ['b', 'b'], false, false, false⟩,
          ⟨0, 6, ['c', 'c'], false, false, false⟩] = -1 ↔
        ∃ w ∈ ([⟨0, 0, ['a', 'a'], false, false, false⟩,
          ⟨0, 3, ['b', 'b'], false, false, false⟩,
          ⟨0, 6, ['c', 'c'], false, false, false⟩] : List Word), (5 : Int) < (w.wlen : Int)) ∧
      ((∀ w ∈ ([⟨0, 0, ['a', 'a'], false, false, false⟩,
          ⟨0, 3, ['b', 'b'], false, false, false⟩,
          ⟨0, 6, ['c', 'c'], false, false, false⟩] : List Word), (w.wlen : Int) ≤ 5) →
        (∀ segs, Feasible 5 [⟨0, 0, ['a', 'a'], false, false, false⟩,
            ⟨0, 3, ['b', 'b'], false, false, false⟩,
            ⟨0, 6, ['c', 'c'], false, false, false⟩] segs →
          breakVal 5 true segs ≤ simplebreaks 5 true [⟨0, 0, ['a', 'a'], false, false, false⟩,
            ⟨0, 3, ['b', 'b'], false, false, false⟩,
            ⟨0, 6, ['c', 'c'], false, false, false⟩]) ∧
        ∃ segs, Feasible 5 [⟨0, 0, ['a', 'a'], false, false, false⟩,
            ⟨0, 3, ['b', 'b'], false, false, false⟩,
            ⟨0, 6, ['c', 'c'], false, false, false⟩] segs ∧
          breakVal 5 true segs = simplebreaks 5 true [⟨0, 0, ['a', 'a'], false, false, false⟩,
            ⟨0, 3, ['b', 'b'], false, false, false⟩,
            ⟨0, 6, ['c', 'c'], false, false, false⟩])) :=
  ⟨by decide,
   simplebreaks_spec 5 true [⟨0, 0, ['a', 'a'], false, false, false⟩,
     ⟨0, 3, ['b', 'b'], false, false, false⟩,
     ⟨0, 6, ['c', 'c'], false, false, false⟩] (by decide)⟩

end Par
